import Mathlib

/-!
Verification of the pagination, comment-validation, compat-patch, session
round-trip and user-agent components of the instagram_private_api client.

The Lean definitions below are shallow embeddings of the Python source:

* src/instagram_private_api/endpoints/feed.py   (feed_timeline)
* src/instagram_private_api/endpoints/media.py  (media_n_comments, post_comment)
* src/examples/savesettings_logincallback.py    (to_json / from_json)

Python dict responses are modelled as records; the server is modelled as a
function from call index to page response; in-place mutation of response
dicts (compat patching) is modelled by applying the patch function to the
aliased positions of the returned list.
-/

namespace InstaApi

/-- Truthiness of the optional next_max_id value of a response, as Python
evaluates res.get('next_max_id') in a boolean context: a missing key and an
empty string are falsy. -/
def cursorTruthy : Option String → Bool
  | none => false
  | some s => !s.isEmpty

/-- One page response of a paginated endpoint.  more models the
more_available (feed) / has_more_comments (comments) flag; next_max_id the
pagination cursor; items the feed_items / comments list of the response. -/
structure Page (α : Type) where
  more : Bool
  next_max_id : Option String
  items : List α
  deriving Repr, DecidableEq

/-- Shared pagination loop of feed_timeline (feed.py lines 32-37) and
media_n_comments (media.py lines 90-96).  The state is the last response res
(= pages k, the k-th call's result) and the list pre of items accumulated
from all earlier responses, so that the Python accumulator equals
pre ++ res.items.  Returns (prefix, last response, number of pages fetched).

    while res.get('more_available') and res.get('next_max_id') and len(media) < n:
        res = self._call_api(...)
        media.extend(res.get('feed_items', []))
        if not res.get('next_max_id') or not res.get('feed_items'):
            break
-/
def paginateLoop {α : Type} (pages : Nat → Page α) (n : Nat) (res : Page α)
    (pre : List α) (k : Nat) : List α × Page α × Nat :=
  if res.more && cursorTruthy res.next_max_id && pre.length + res.items.length < n then
    let res' := pages (k+1)
    if !(cursorTruthy res'.next_max_id) || res'.items.isEmpty then
      (pre ++ res.items, res', k + 2)
    else
      paginateLoop pages n res' (pre ++ res.items) (k+1)
  else
    (pre, res, k + 1)
  termination_by n - (pre.length + res.items.length)
  decreasing_by
    rename_i h1 h2
    simp only [Bool.and_eq_true, decide_eq_true_eq] at h1
    have h3 : (pages (k+1)).items ≠ [] := by
      intro hX
      apply h2
      simp only [Bool.or_eq_true, Bool.not_eq_true', List.isEmpty_iff]
      exact Or.inr hX
    have h4 : 1 ≤ (pages (k+1)).items.length := List.length_pos.mpr h3
    simp only [List.length_append]
    omega

/-- Initial request plus pagination loop: the accumulated prefix, the last
response, and the number of pages fetched. -/
def paginate {α : Type} (pages : Nat → Page α) (n : Nat) : List α × Page α × Nat :=
  paginateLoop pages n (pages 0) [] 0

/-- Number of _call_api invocations performed by the pagination helper: the
pages fetched are pages 0, ..., fetchCount - 1. -/
def fetchCount {α : Type} (pages : Nat → Page α) (n : Nat) : Nat :=
  (paginate pages n).2.2

/-- Concatenation, in fetch order, of the item lists of the first m pages. -/
def flatItems {α : Type} (pages : Nat → Page α) (m : Nat) : List α :=
  (List.range m).flatMap fun i => (pages i).items

/-- While-guard of the pagination loop as evaluated after page k's items have
been appended: more flag, cursor present, and accumulated count below n. -/
def whileCond {α : Type} (pages : Nat → Page α) (n : Nat) (k : Nat) : Bool :=
  (pages k).more && cursorTruthy (pages k).next_max_id &&
    decide ((flatItems pages (k+1)).length < n)

/-- Negation of the defensive bail-out applied to responses fetched inside
the loop: page k neither lacks a cursor nor has an empty item list. -/
def noBail {α : Type} (pages : Nat → Page α) (k : Nat) : Bool :=
  cursorTruthy (pages k).next_max_id && !(pages k).items.isEmpty

/-- Page k+1 is requested exactly when page k was requested and continues
pages n k holds: the while-guard, plus (for responses fetched inside the
loop, k ≥ 1) the bail-out not firing. -/
def continues {α : Type} (pages : Nat → Page α) (n : Nat) (k : Nat) : Bool :=
  (decide (k = 0) || noBail pages k) && whileCond pages n k

/-- feed_timeline (feed.py lines 14-43).  The items accumulated over all
fetched pages are returned; when auto_patch is set the source compat-patches,
in place, the dicts of the final response's feed_items list, which are
exactly the tail positions of the returned accumulator, so the embedding
applies patchItem to that tail.  patchItem models
ClientCompatPatch.media(m['media_or_ad']) if m.get('media_or_ad') else m. -/
def feed_timeline {α : Type} (pages : Nat → Page α) (n : Nat)
    (auto_patch : Bool) (patchItem : α → α) : List α :=
  let r := paginate pages n
  if auto_patch then r.1 ++ r.2.1.items.map patchItem else r.1 ++ r.2.1.items

/-- Comment entity as used by media_n_comments: the sort key created_time
plus an identifying payload. -/
structure IGComment where
  created_time : Int
  pk : Nat
  deriving Repr, DecidableEq

/-- Comparison used by sorted(comments, key=lambda k: k['created_time']). -/
def commentLe (a b : IGComment) : Bool := a.created_time ≤ b.created_time

/-- Comparison modelling sorted(..., reverse=True), which is a stable
descending sort. -/
def commentGe (a b : IGComment) : Bool := b.created_time ≤ a.created_time

/-- media_n_comments (media.py lines 74-102): accumulate comments with the
shared pagination loop, optionally compat-patch every accumulated comment in
place, and return them sorted by created_time (descending when reverse). -/
def media_n_comments (pages : Nat → Page IGComment) (n : Nat) (reverse : Bool)
    (auto_patch : Bool) (patchComment : IGComment → IGComment) : List IGComment :=
  let r := paginate pages n
  let comments := r.1 ++ r.2.1.items
  let patched := if auto_patch then comments.map patchComment else comments
  if reverse then patched.mergeSort commentGe else patched.mergeSort commentLe

/-- Patching of one timeline feed item, modelling
ClientCompatPatch.media(m['media_or_ad']) if m.get('media_or_ad') else m
(feed.py lines 40-42): an item is its optional media_or_ad sub-dict, which is
patched in place when present. -/
def patchFeedItem {β : Type} (patchMedia : β → β) : Option β → Option β
  | some m => some (patchMedia m)
  | none => none

/-- Server returning a single comments page with no cursor whose comments are
not in created_time order. -/
def onePageC : Nat → Page IGComment :=
  fun _ => { more := false, next_max_id := none, items := [⟨2, 0⟩, ⟨1, 1⟩] }

/-- Server returning a single feed page with no cursor. -/
def wPagesA : Nat → Page Nat :=
  fun _ => { more := false, next_max_id := none, items := [3] }

/-- Server whose second page triggers the empty-items bail-out while still
advertising more pages. -/
def wPagesB : Nat → Page Nat := fun k =>
  match k with
  | 0 => { more := true, next_max_id := some "a", items := [1] }
  | 1 => { more := true, next_max_id := some "b", items := [] }
  | _ => { more := false, next_max_id := none, items := [] }

/-- Server returning two comment pages, the first advertising more. -/
def wPagesC : Nat → Page IGComment := fun k =>
  match k with
  | 0 => { more := true, next_max_id := some "a", items := [⟨5, 0⟩] }
  | _ => { more := false, next_max_id := none, items := [⟨1, 1⟩] }

/-! Model of post_comment (media.py lines 145-199) and its comment-text
validation regexes, over ASCII text. -/

/-- Word character of the regex word-boundary \x5cb (ASCII model of \x5cw). -/
def isWordChar (c : Char) : Bool := c.isAlpha || c.isDigit || c = '_'

/-- Whitespace as matched by the regex class \x5cs (ASCII model). -/
def pyIsSpace (c : Char) : Bool :=
  c = ' ' || c = '\t' || c = '\n' || c = '\r' || c = '\x0b' || c = '\x0c'

/-- Word-boundary test after consuming a candidate hashtag body of length L
out of run, with after following the run: the boundary holds when the last
consumed character and the next character (end of input counting as
non-word) differ in word-character status. -/
def hashtagBoundary (run after : List Char) (L : Nat) : Bool :=
  match run[L-1]? with
  | some last =>
    let nextW :=
      match run[L]? with
      | some c => isWordChar c
      | none =>
        match after.head? with
        | some c => isWordChar c
        | none => false
    isWordChar last != nextW
  | none => false

/-- Greedy backtracking of the hashtag body: the longest L with 1 ≤ L that
ends on a word boundary. -/
def hashtagFindLen (run after : List Char) : Nat → Option Nat
  | 0 => none
  | L+1 => if hashtagBoundary run after (L+1) then some (L+1) else hashtagFindLen run after L

/-- Number of matches of the comment-validation hashtag regex, scanning left
to right without overlap: a hash sign, one or more non-hash characters taken
greedily, ending at a word boundary. -/
def hashtagCount : List Char → Nat
  | [] => 0
  | c :: rest =>
    if c = '#' then
      let run := rest.takeWhile (fun d => d ≠ '#')
      match hashtagFindLen run (rest.drop run.length) run.length with
      | some L => 1 + hashtagCount (rest.drop L)
      | none => hashtagCount rest
    else hashtagCount rest
  termination_by s => s.length
  decreasing_by
    · simp only [List.length_drop, List.length_cons]
      omega
    · simp
    · simp

/-- Length of the scheme prefix http:// or https:// when the text starts
with one (the optional s is matched greedily). -/
def urlSchemeLen (s : List Char) : Option Nat :=
  if List.isPrefixOf "https://".toList s then some 8
  else if List.isPrefixOf "http://".toList s then some 7
  else none

/-- Length of a URL match starting exactly here: the scheme followed by a
greedy run of non-space characters that contains an interior dot (one
non-space character before and after the dot), consuming the whole run. -/
def urlMatchLen (s : List Char) : Option Nat :=
  match urlSchemeLen s with
  | none => none
  | some k =>
    let R := (s.drop k).takeWhile (fun c => !pyIsSpace c)
    if (R.drop 1).dropLast.contains '.' then some (k + R.length) else none

/-- Scan counting the matches of the URL regex: a word boundary before the
scheme (prev is the character preceding the scan position), then the scheme
and the dotted non-space run; scanning resumes after each match. -/
def urlScan : Option Char → List Char → Nat
  | _, [] => 0
  | prev, c :: rest =>
    if (match prev with | none => true | some p => !isWordChar p) then
      match urlMatchLen (c :: rest) with
      | some L => 1 + urlScan ((c :: rest).take L).getLast? (rest.drop (L-1))
      | none => urlScan (some c) rest
    else urlScan (some c) rest
  termination_by _ s => s.length
  decreasing_by
    · simp only [List.length_drop, List.length_cons]
      omega
    · simp
    · simp

/-- Number of matches of the comment-validation URL regex in the text. -/
def urlCount (s : List Char) : Nat := urlScan none s

/-- One HTTP request issued through the generic _call_api primitive. -/
structure ApiCall where
  endpoint : String
  params : List (String × List Char)

/-- Outcome of post_comment: a raised ValueError message, or the response. -/
inductive PCResult (ρ : Type) where
  | err : String → PCResult ρ
  | ok : ρ → PCResult ρ
  deriving Repr

/-- post_comment (media.py lines 145-199) over an abstract client: σ is the
client/session state, call_api the transport returning the updated state and
the parsed response, breadcrumb and uuid model gen_user_breadcrumb and
self.generate_uuid, authenticated_params the signed parameter set, patchRes
the auto_patch compat patch of res['comment'].  Returns the outcome, the
final client state, and the list of API calls issued, so that the
validation-error path visibly issues no request and leaves the state
untouched. -/
def post_comment {σ ρ : Type} (st : σ) (call_api : σ → ApiCall → σ × ρ)
    (auto_patch : Bool) (patchRes : ρ → ρ)
    (breadcrumb : Nat → List Char) (uuid : List Char)
    (authenticated_params : List (String × List Char))
    (media_id : String) (comment_text : List Char) :
    PCResult ρ × σ × List ApiCall :=
  if 300 < comment_text.length then
    (.err "The total length of the comment cannot exceed 300 characters.", st, [])
  else if comment_text.any Char.isAlpha &&
      decide (comment_text = comment_text.map Char.toUpper) then
    (.err "The comment cannot consist of all capital letters.", st, [])
  else if 4 < hashtagCount comment_text then
    (.err "The comment cannot contain more than 4 hashtags.", st, [])
  else if 1 < urlCount comment_text then
    (.err "The comment cannot contain more than 1 URL.", st, [])
  else
    let call : ApiCall :=
      { endpoint := "media/" ++ media_id ++ "/comment/"
        params := [("comment_text", comment_text),
                   ("user_breadcrumb", breadcrumb comment_text.length),
                   ("idempotence_token", uuid),
                   ("containermodule", "comments_feed_timeline".toList)] ++
                  authenticated_params }
    let pr := call_api st call
    (.ok (if auto_patch then patchRes pr.2 else pr.2), pr.1, [call])

/-! Model of the compat patcher.  The module instagram_private_api/compatpatch.py
is not among the sources here (only its tests and callers are), so the patch
functions are modelled from the spec. -/

/-- Lookup of a field in an entity dictionary, modelled as an association
list returning the first binding. -/
def entLookup {V : Type} : List (String × V) → String → Option V
  | [], _ => none
  | (k, v) :: rest, key => if k = key then some v else entLookup rest key

/-- Modelled from the spec: one derivation rule of a compat patch function of
ClientCompatPatch (compatpatch.py, missing from the sources): the legacy
target field name, and the derivation of its value, which per the spec reads
only canonical fields ("they only add/derive, never re-derive from
already-derived fields"). -/
structure PatchRule (V : Type) where
  target : String
  derive : (String → Option V) → Option V

/-- View of an entity restricted to its canonical (non-derived) fields: the
legacy target names are masked out, so derivations cannot read them. -/
def canonicalView {V : Type} (targets : List String) (e : List (String × V))
    (k : String) : Option V :=
  if k ∈ targets then none else entLookup e k

/-- Modelled from the spec: application of one patch rule.  A legacy field is
added alongside the canonical ones only when absent ("idempotent and
additive, never destructive of the original fields"); a derivation that
yields nothing leaves the entity unchanged. -/
def applyRule {V : Type} (targets : List String) (e : List (String × V))
    (r : PatchRule V) : List (String × V) :=
  if (entLookup e r.target).isSome then e
  else
    match r.derive (canonicalView targets e) with
    | some v => e ++ [(r.target, v)]
    | none => e

/-- Modelled from the spec: a compat patch function is the successive
application of its derivation rules. -/
def patchWith {V : Type} (rules : List (PatchRule V)) (e : List (String × V)) :
    List (String × V) :=
  rules.foldl (applyRule (rules.map (fun r => r.target))) e

/-- Modelled from the spec: drop_incompat_keys removes, after patching, the
fields that have no legacy equivalent (the incompat name list). -/
def patchEntity {V : Type} (rules : List (PatchRule V)) (incompat : List String)
    (drop_incompat_keys : Bool) (e : List (String × V)) : List (String × V) :=
  let p := patchWith rules e
  if drop_incompat_keys then p.filter (fun kv => decide (kv.1 ∉ incompat)) else p

/-- Modelled from the spec: ClientCompatPatch.media adds the legacy media
fields (string id, permalink link, created_time, images/videos shorthand,
type, filter) derived from canonical fields via the given derivations. -/
def ClientCompatPatch.media {V : Type}
    (dId dLink dCreated dImages dType dFilter : (String → Option V) → Option V)
    (drop_incompat_keys : Bool) (incompat : List String)
    (e : List (String × V)) : List (String × V) :=
  patchEntity [⟨"id", dId⟩, ⟨"link", dLink⟩, ⟨"created_time", dCreated⟩,
    ⟨"images", dImages⟩, ⟨"type", dType⟩, ⟨"filter", dFilter⟩]
    incompat drop_incompat_keys e

/-- Modelled from the spec: ClientCompatPatch.comment adds the legacy comment
fields (string id, created_time, from) derived from canonical fields. -/
def ClientCompatPatch.comment {V : Type}
    (dId dCreated dFrom : (String → Option V) → Option V)
    (drop_incompat_keys : Bool) (incompat : List String)
    (e : List (String × V)) : List (String × V) :=
  patchEntity [⟨"id", dId⟩, ⟨"created_time", dCreated⟩, ⟨"from", dFrom⟩]
    incompat drop_incompat_keys e

/-- Modelled from the spec: ClientCompatPatch.user adds the legacy user
fields (string id, profile_picture, bio, website) derived from canonical
fields. -/
def ClientCompatPatch.user {V : Type}
    (dId dPic dBio dWebsite : (String → Option V) → Option V)
    (drop_incompat_keys : Bool) (incompat : List String)
    (e : List (String × V)) : List (String × V) :=
  patchEntity [⟨"id", dId⟩, ⟨"profile_picture", dPic⟩, ⟨"bio", dBio⟩,
    ⟨"website", dWebsite⟩] incompat drop_incompat_keys e

/-- Modelled from the spec: ClientCompatPatch.list_user adds the legacy
short-form user fields (string id, profile_picture) derived from canonical
fields. -/
def ClientCompatPatch.list_user {V : Type}
    (dId dPic : (String → Option V) → Option V)
    (drop_incompat_keys : Bool) (incompat : List String)
    (e : List (String × V)) : List (String × V) :=
  patchEntity [⟨"id", dId⟩, ⟨"profile_picture", dPic⟩] incompat drop_incompat_keys e

/-! Model of the session-settings save/load round trip
(src/examples/savesettings_logincallback.py): the bytes-tagging JSON encoder
to_json, the matching decoder from_json, and the base64 codec they use.
Bytes are naturals below 256. -/

/-- Base64 alphabet of the codec. -/
def b64Alphabet : List Char :=
  "ABCDEFGHIJKLMNOPQRSTUVWXYZabcdefghijklmnopqrstuvwxyz0123456789+/".toList

/-- Character encoding a 6-bit group. -/
def b64char (v : Nat) : Char := b64Alphabet.getD v '?'

/-- Index of a character in the alphabet. -/
def b64valueAux (c : Char) : List Char → Nat → Option Nat
  | [], _ => none
  | d :: rest, i => if d = c then some i else b64valueAux c rest (i + 1)

/-- 6-bit value of an alphabet character; none for every other character. -/
def b64value (c : Char) : Option Nat := b64valueAux c b64Alphabet 0

/-- Base64 encoding of a byte list, three bytes to four characters, padding
the final group with = signs. -/
def encodeTriples : List Nat → List Char
  | b1 :: b2 :: b3 :: rest =>
    b64char (b1 / 4) :: b64char ((b1 % 4) * 16 + b2 / 16) ::
      b64char ((b2 % 16) * 4 + b3 / 64) :: b64char (b3 % 64) :: encodeTriples rest
  | [b1, b2] => [b64char (b1 / 4), b64char ((b1 % 4) * 16 + b2 / 16),
                 b64char ((b2 % 16) * 4), '=']
  | [b1] => [b64char (b1 / 4), b64char ((b1 % 4) * 16), '=', '=']
  | [] => []

/-- 57-byte chunks, as fed to the line-wrapping base64 codec. -/
def byteChunks : List Nat → List (List Nat)
  | [] => []
  | b :: rest => ((b :: rest).take 57) :: byteChunks ((b :: rest).drop 57)
  termination_by l => l.length
  decreasing_by
    simp only [List.length_drop, List.length_cons]
    omega

/-- codecs.encode(b, 'base64'): each 57-byte chunk encoded to a
newline-terminated base64 line. -/
def encodeBase64Codec (l : List Nat) : List Char :=
  (byteChunks l).flatMap fun ch => encodeTriples ch ++ ['\n']

/-- Base64 decoding of four-character groups, honouring = padding. -/
def decodeQuads : List Char → List Nat
  | c1 :: c2 :: c3 :: c4 :: rest =>
    (match b64value c1, b64value c2 with
     | some v1, some v2 =>
       if c3 = '=' then [v1 * 4 + v2 / 16]
       else
         match b64value c3 with
         | some v3 =>
           if c4 = '=' then [v1 * 4 + v2 / 16, (v2 % 16) * 16 + v3 / 4]
           else
             match b64value c4 with
             | some v4 =>
               (v1 * 4 + v2 / 16) :: ((v2 % 16) * 16 + v3 / 4) :: ((v3 % 4) * 64 + v4) ::
                 decodeQuads rest
             | none => []
         | none => []
     | _, _ => [])
  | _ => []

/-- Characters retained by the decoder: the alphabet and the padding sign;
everything else (newlines in particular) is skipped. -/
def isB64orPad (c : Char) : Bool := (b64value c).isSome || c = '='

/-- codecs.decode(s, 'base64'): skip non-alphabet characters and decode the
four-character groups. -/
def decodeBase64Codec (s : List Char) : List Nat :=
  decodeQuads (s.filter isB64orPad)

/-- JSON value as handled by json.dump / json.load (strings as character
lists; objects as field lists). -/
inductive JsonVal where
  | str : List Char → JsonVal
  | num : Int → JsonVal
  | boolean : Bool → JsonVal
  | obj : List (String × JsonVal) → JsonVal

/-- Leaf value of a session settings dictionary. -/
inductive SettingVal where
  | str : List Char → SettingVal
  | num : Int → SettingVal
  | boolean : Bool → SettingVal
  | bytes : List Nat → SettingVal
  deriving Repr, DecidableEq

/-- Validity of a settings leaf: byte values are below 256. -/
def leafValid : SettingVal → Bool
  | SettingVal.bytes b => b.all fun x => decide (x < 256)
  | _ => true

/-- to_json (savesettings_logincallback.py lines 15-19): a bytes value is
serialised as the tagged object with its base64-codec encoding. -/
def to_json (b : List Nat) : List (String × JsonVal) :=
  [("__class__", JsonVal.str "bytes".toList),
   ("__value__", JsonVal.str (encodeBase64Codec b))]

/-- Result of the from_json object hook: decoded bytes, or the dictionary
kept as is. -/
inductive HookResult where
  | bytes : List Nat → HookResult
  | keep : List (String × JsonVal) → HookResult

/-- from_json (savesettings_logincallback.py lines 22-26): a parsed object
carrying __class__ = bytes decodes its __value__ through the base64 codec;
every other object passes through unchanged. -/
def from_json (d : List (String × JsonVal)) : HookResult :=
  match entLookup d "__class__" with
  | some (JsonVal.str s) =>
    if s = "bytes".toList then
      match entLookup d "__value__" with
      | some (JsonVal.str v) => HookResult.bytes (decodeBase64Codec v)
      | _ => HookResult.bytes []
    else HookResult.keep d
  | some _ => HookResult.keep d
  | none => HookResult.keep d

/-- Serialisation of one settings leaf by json.dump with default=to_json. -/
def leafToJson : SettingVal → JsonVal
  | SettingVal.str s => JsonVal.str s
  | SettingVal.num n => JsonVal.num n
  | SettingVal.boolean b => JsonVal.boolean b
  | SettingVal.bytes b => JsonVal.obj (to_json b)

/-- json.dump(settings, default=to_json) of a flat settings dictionary. -/
def dumpSettings (s : List (String × SettingVal)) : JsonVal :=
  JsonVal.obj (s.map fun kv => (kv.1, leafToJson kv.2))

/-- Reading one field value back: a tagged object decodes to bytes through
the from_json hook; an untagged object has no place in a flat settings
dictionary. -/
def hookLeaf : JsonVal → Option SettingVal
  | JsonVal.str s => some (SettingVal.str s)
  | JsonVal.num n => some (SettingVal.num n)
  | JsonVal.boolean b => some (SettingVal.boolean b)
  | JsonVal.obj d =>
    match from_json d with
    | HookResult.bytes b => some (SettingVal.bytes b)
    | HookResult.keep _ => none

/-- Reading all fields of a parsed settings object. -/
def loadFields : List (String × JsonVal) → Option (List (String × SettingVal))
  | [] => some []
  | (k, v) :: rest =>
    match hookLeaf v, loadFields rest with
    | some s, some tail => some ((k, s) :: tail)
    | _, _ => none

/-- json.load(..., object_hook=from_json) of a dumped settings document: the
hook is applied to every parsed object, innermost first. -/
def loadSettings (j : JsonVal) : Option (List (String × SettingVal)) :=
  match j with
  | JsonVal.obj d =>
    (match from_json d with
     | HookResult.keep d2 => loadFields d2
     | HookResult.bytes _ => none)
  | _ => none

/-! Model of user-agent generation and parsing.  Client.generate_useragent
and Client.validate_useragent are not among the sources here (only their
tests are), so they are modelled from the spec's descriptor format
AppName Version Platform (androidVersion/androidRelease; dpi; resolution;
manufacturer; device; model; chipset; locale). -/

/-- Decimal digit character. -/
def digitChar (d : Nat) : Char := Char.ofNat (48 + d)

/-- Decimal digits of a positive number, most significant first. -/
def natCharsCore : Nat → List Char
  | 0 => []
  | n+1 => natCharsCore ((n+1) / 10) ++ [digitChar ((n+1) % 10)]
  termination_by n => n
  decreasing_by omega

/-- Decimal rendering of a natural number. -/
def natChars (n : Nat) : List Char :=
  if n = 0 then ['0'] else natCharsCore n

/-- Value of a decimal digit character. -/
def digitVal (c : Char) : Option Nat :=
  if '0' ≤ c ∧ c ≤ '9' then some (c.toNat - 48) else none

/-- Accumulating decimal parser; fails on any non-digit. -/
def parseNatAux : List Char → Nat → Option Nat
  | [], acc => some acc
  | c :: rest, acc =>
    match digitVal c with
    | some d => parseNatAux rest (acc * 10 + d)
    | none => none

/-- Decimal parser of a non-empty all-digit segment. -/
def parseNat : List Char → Option Nat
  | [] => none
  | c :: rest => parseNatAux (c :: rest) 0

/-- Consume an expected prefix, returning the remainder. -/
def dropPrefixChars : List Char → List Char → Option (List Char)
  | [], s => some s
  | _ :: _, [] => none
  | p :: ps, c :: cs => if p = c then dropPrefixChars ps cs else none

/-- Split at the first occurrence of a separator. -/
def splitFirst (sep : Char) : List Char → Option (List Char × List Char)
  | [] => none
  | c :: rest =>
    if c = sep then some ([], rest)
    else
      match splitFirst sep rest with
      | some (l, r) => some (c :: l, r)
      | none => none

/-- Split at every occurrence of a separator. -/
def splitAll (sep : Char) : List Char → List (List Char)
  | [] => [[]]
  | c :: rest =>
    if c = sep then [] :: splitAll sep rest
    else
      match splitAll sep rest with
      | t :: ts => (c :: t) :: ts
      | [] => [[c]]

/-- Structured fields of the user-agent descriptor. -/
structure UserAgentParams where
  app_version : List Char
  android_version : Nat
  android_release : List Char
  dpi : List Char
  resolution : List Char
  brand : List Char
  device : List Char
  model : List Char
  chipset : List Char
  locale : List Char
  deriving Repr, DecidableEq

/-- The parenthesised segment list of the descriptor, with an arbitrary
android-version segment avs. -/
def uaInner (avs : List Char) (p : UserAgentParams) : List Char :=
  avs ++ ['/'] ++ p.android_release ++ [';', ' '] ++ p.dpi ++ [';', ' '] ++
    p.resolution ++ [';', ' '] ++ p.brand ++ [';', ' '] ++ p.device ++
    [';', ' '] ++ p.model ++ [';', ' '] ++ p.chipset ++ [';', ' '] ++ p.locale

/-- A descriptor-shaped string with an arbitrary android-version segment. -/
def rawUA (avs : List Char) (p : UserAgentParams) : List Char :=
  "Instagram ".toList ++ p.app_version ++ [' '] ++ "Android (".toList ++
    uaInner avs p ++ [')']

/-- Modelled from the spec: Client.generate_useragent formats the validated
device fields into the descriptor
AppName Version Platform (androidVersion/androidRelease; dpi; resolution;
manufacturer; device; model; chipset; locale). -/
def generate_useragent (p : UserAgentParams) : List Char :=
  rawUA (natChars p.android_version) p

/-- Field sanity for the round trip: no separator or closing parenthesis
inside a segment, and no leading space (the parser strips the space that
follows each separator). -/
def uaFieldOk (f : List Char) : Bool :=
  decide (';' ∉ f) && decide (')' ∉ f) && decide (f.head? ≠ some ' ')

/-- Modelled from the spec: Client.validate_useragent parses a descriptor,
extracting the structured fields, and raises a ValueError on any string not
matching the format — in particular on a non-numeric android-version
segment. -/
def validate_useragent (s : List Char) : Except String UserAgentParams :=
  match dropPrefixChars "Instagram ".toList s with
  | none => Except.error "User-agent specified does not match format required"
  | some s1 =>
    match splitFirst ' ' s1 with
    | none => Except.error "User-agent specified does not match format required"
    | some (appv, s2) =>
      match dropPrefixChars "Android (".toList s2 with
      | none => Except.error "User-agent specified does not match format required"
      | some s3 =>
        match splitFirst ')' s3 with
        | none => Except.error "User-agent specified does not match format required"
        | some (inner, rest) =>
          if rest = [] then
            match (splitAll ';' inner).map (fun t => t.dropWhile fun c => c = ' ') with
            | [avRel, dpi, res, brand, dev, mdl, chip, loc] =>
              (match splitFirst '/' avRel with
               | none => Except.error "User-agent specified does not match format required"
               | some (avs, rel) =>
                 match parseNat avs with
                 | some av => Except.ok ⟨appv, av, rel, dpi, res, brand, dev, mdl, chip, loc⟩
                 | none => Except.error "User-agent specified does not match format required")
            | _ => Except.error "User-agent specified does not match format required"
          else Except.error "User-agent specified does not match format required"

/-! Theorems about the pagination loop. -/

/-- Base case of flatItems. -/
theorem flatItems_zero {α : Type} (pages : Nat → Page α) : flatItems pages 0 = [] := rfl

/-- Unfolding of flatItems at a successor count. -/
theorem flatItems_succ {α : Type} (pages : Nat → Page α) (m : Nat) :
    flatItems pages (m+1) = flatItems pages m ++ (pages m).items := by
  simp [flatItems, List.range_succ]

/-- Master characterisation of the pagination loop: starting at call index k
with the items of pages 0..k-1 accumulated, the loop returns the items of all
fetched pages, the last fetched page, and the fetch count c, where every page
before the last was fetched under a true while-guard, every strictly interior
loop page passed the bail-out check, and the loop stopped for the reason the
code prescribes. -/
theorem paginateLoop_spec {α : Type} (pages : Nat → Page α) (n : Nat) :
    ∀ (res : Page α) (pre : List α) (k : Nat), res = pages k → pre = flatItems pages k →
    ∃ c, k + 1 ≤ c ∧
      paginateLoop pages n res pre k = (flatItems pages (c-1), pages (c-1), c) ∧
      (∀ j, k ≤ j → j + 1 < c → whileCond pages n j = true) ∧
      (∀ j, k < j → j + 1 < c → noBail pages j = true) ∧
      (c = k + 1 → whileCond pages n k = false) ∧
      (k + 1 < c → (noBail pages (c-1) && whileCond pages n (c-1)) = false) := by
  intro res pre k
  induction res, pre, k using paginateLoop.induct pages n with
  | case1 res pre k h1 res' h2 =>
    intro hres hpre
    subst hres
    subst hpre
    refine ⟨k + 2, by omega, ?_, ?_, ?_, by omega, ?_⟩
    · rw [paginateLoop]
      simp only [h1, if_true, h2, if_true]
      have : k + 2 - 1 = k + 1 := by omega
      rw [this, flatItems_succ]
    · intro j hkj hjc
      have hj : j = k := by omega
      subst hj
      unfold whileCond
      rw [flatItems_succ, List.length_append]
      exact h1
    · intro j hkj hjc
      omega
    · intro _
      have hc1 : k + 2 - 1 = k + 1 := by omega
      rw [hc1]
      simp only [Bool.or_eq_true, Bool.not_eq_true', List.isEmpty_iff] at h2
      unfold noBail
      rcases h2 with h2 | h2
      · rw [h2]
        simp
      · rw [h2]
        simp
  | case2 res pre k h1 res' h2 ih =>
    intro hres hpre
    subst hres
    subst hpre
    have hpre' : flatItems pages k ++ (pages k).items = flatItems pages (k+1) :=
      (flatItems_succ pages k).symm
    obtain ⟨c, hc1, hc2, hc3, hc4, hc5, hc6⟩ := ih rfl hpre'
    simp only [Bool.or_eq_true, Bool.not_eq_true', List.isEmpty_iff, not_or, Bool.not_eq_false] at h2
    refine ⟨c, by omega, ?_, ?_, ?_, by omega, ?_⟩
    · rw [paginateLoop]
      simp only [h1, if_true]
      rw [if_neg, hc2]
      simp only [Bool.or_eq_true, Bool.not_eq_true', List.isEmpty_iff, not_or, Bool.not_eq_false]
      exact h2
    · intro j hkj hjc
      rcases Nat.eq_or_lt_of_le hkj with hj | hj
      · subst hj
        unfold whileCond
        rw [flatItems_succ, List.length_append]
        exact h1
      · exact hc3 j (by omega) hjc
    · intro j hkj hjc
      rcases Nat.eq_or_lt_of_le (Nat.succ_le_of_lt hkj) with hj | hj
      · have hj' : j = k + 1 := by omega
        subst hj'
        unfold noBail
        rw [h2.1]
        have : (pages (k+1)).items.isEmpty = false := by
          simp [List.isEmpty_iff, h2.2]
        rw [this]
        rfl
      · exact hc4 j (by omega) hjc
    · intro _
      rcases Nat.eq_or_lt_of_le hc1 with hcc | hcc
      · have hw : whileCond pages n (k+1) = false := hc5 hcc.symm
        have hcc1 : c - 1 = k + 1 := by omega
        rw [hcc1, hw]
        simp
      · exact hc6 hcc
  | case3 res pre k h1 =>
    intro hres hpre
    subst hres
    subst hpre
    refine ⟨k + 1, le_refl _, ?_, ?_, ?_, ?_, by omega⟩
    · rw [paginateLoop]
      rw [if_neg h1]
      simp
    · intro j hkj hjc
      omega
    · intro j hkj hjc
      omega
    · intro _
      unfold whileCond
      rw [flatItems_succ, List.length_append]
      simp only [Bool.and_eq_true, decide_eq_true_eq, not_and] at h1 ⊢
      by_cases hm : (pages k).more = true
      · by_cases hcu : cursorTruthy (pages k).next_max_id = true
        · have := h1 ⟨hm, hcu⟩
          simp [hm, hcu]
          omega
        · simp [Bool.eq_false_iff.mpr hcu]
      · simp [Bool.eq_false_iff.mpr hm]

/-- Top-level characterisation of paginate in terms of fetchCount: at least
one page is fetched, the accumulated prefix and last response are those of
the fetched pages, every page except the last was followed by a further
request exactly under continues, and the last page fails continues. -/
theorem paginate_spec {α : Type} (pages : Nat → Page α) (n : Nat) :
    1 ≤ fetchCount pages n ∧
    paginate pages n = (flatItems pages (fetchCount pages n - 1),
      pages (fetchCount pages n - 1), fetchCount pages n) ∧
    (∀ j, j + 1 < fetchCount pages n → continues pages n j = true) ∧
    continues pages n (fetchCount pages n - 1) = false := by
  obtain ⟨c, hc1, hc2, hc3, hc4, hc5, hc6⟩ :=
    paginateLoop_spec pages n (pages 0) [] 0 rfl (flatItems_zero pages).symm
  have hceq : fetchCount pages n = c := by
    unfold fetchCount paginate
    rw [hc2]
  rw [hceq]
  refine ⟨hc1, hc2, ?_, ?_⟩
  · intro j hj
    unfold continues
    rcases Nat.eq_zero_or_pos j with hj0 | hj0
    · subst hj0
      have hd : decide ((0:Nat) = 0) = true := by decide
      rw [hd]
      simp only [Bool.true_or, Bool.true_and]
      exact hc3 0 (by omega) hj
    · have hnb : noBail pages j = true := hc4 j (by omega) hj
      have hw : whileCond pages n j = true := hc3 j (by omega) hj
      rw [hnb, hw]
      simp
  · rcases Nat.eq_or_lt_of_le hc1 with hceq1 | hceq1
    · have hw : whileCond pages n 0 = false := hc5 hceq1.symm
      unfold continues
      have : c - 1 = 0 := by omega
      rw [this, hw]
      simp
    · have hb : (noBail pages (c-1) && whileCond pages n (c-1)) = false := hc6 hceq1
      unfold continues
      have hne : decide (c - 1 = 0) = false := by
        simp only [decide_eq_false_iff_not]
        omega
      rw [hne]
      simp only [Bool.false_or]
      exact hb

/-- The accumulated list together with the final response's items is the
concatenation of all fetched pages' items, in fetch order. -/
theorem paginate_concat {α : Type} (pages : Nat → Page α) (n : Nat) :
    (paginate pages n).1 ++ (paginate pages n).2.1.items =
      flatItems pages (fetchCount pages n) := by
  obtain ⟨h1, h2, _, _⟩ := paginate_spec pages n
  rw [h2]
  simp only
  have : fetchCount pages n - 1 + 1 = fetchCount pages n := by omega
  rw [← flatItems_succ, this]

/-- With auto_patch disabled, feed_timeline returns exactly the concatenation
of the fetched pages' item lists in fetch order. -/
theorem feed_timeline_concat {α : Type} (pages : Nat → Page α) (n : Nat)
    (patchItem : α → α) :
    feed_timeline pages n false patchItem = flatItems pages (fetchCount pages n) := by
  unfold feed_timeline
  simp only [if_neg (Bool.false_ne_true)]
  exact paginate_concat pages n

/-- A page is requested after page k exactly when page k was requested and
continues held of its response. -/
theorem fetch_succ_iff {α : Type} (pages : Nat → Page α) (n : Nat) (k : Nat) :
    k + 1 < fetchCount pages n ↔
      (k < fetchCount pages n ∧ continues pages n k = true) := by
  obtain ⟨h1, _, h3, h4⟩ := paginate_spec pages n
  constructor
  · intro h
    exact ⟨by omega, h3 k h⟩
  · rintro ⟨hk, hcont⟩
    by_contra hlt
    have : k = fetchCount pages n - 1 := by omega
    rw [this] at hcont
    rw [h4] at hcont
    exact Bool.false_ne_true hcont

/-- Every page of the accumulation contributes at least m - 1 items once m
pages that passed the bail-out have been fetched. -/
theorem flatItems_length_ge {α : Type} (pages : Nat → Page α) (n : Nat) :
    ∀ m, m ≤ fetchCount pages n - 1 → m - 1 ≤ (flatItems pages m).length := by
  obtain ⟨h1, _, h3, _⟩ := paginate_spec pages n
  intro m
  induction m with
  | zero => intro _; omega
  | succ m ih =>
    intro hm
    rw [flatItems_succ, List.length_append]
    rcases Nat.eq_zero_or_pos m with hm0 | hm0
    · subst hm0
      omega
    · have hcont : continues pages n m = true := by
        apply h3
        omega
      unfold continues noBail at hcont
      simp only [Bool.and_eq_true, Bool.or_eq_true, decide_eq_true_eq] at hcont
      have hne : (pages m).items ≠ [] := by
        rcases hcont.1 with hx | hx
        · omega
        · intro hnil
          rw [hnil] at hx
          simp at hx
      have : 1 ≤ (pages m).items.length := List.length_pos.mpr hne
      have := ih (by omega)
      omega

/-- The pagination loop fetches at most n + 1 pages: every interior loop page
contributes at least one item and the while-guard needs the accumulated count
to stay below n. -/
theorem fetchCount_le {α : Type} (pages : Nat → Page α) (n : Nat) :
    fetchCount pages n ≤ n + 1 := by
  obtain ⟨h1, _, h3, _⟩ := paginate_spec pages n
  by_contra hgt
  have hn2 : n + 1 < fetchCount pages n := by omega
  have hcont : continues pages n (fetchCount pages n - 2) = true := by
    apply h3
    omega
  unfold continues whileCond at hcont
  simp only [Bool.and_eq_true, Bool.or_eq_true, decide_eq_true_eq] at hcont
  have hlen := hcont.2.2
  have hge := flatItems_length_ge pages n (fetchCount pages n - 2 + 1) (by omega)
  omega

/-- commentLe is transitive. -/
theorem commentLe_trans (a b c : IGComment) :
    commentLe a b = true → commentLe b c = true → commentLe a c = true := by
  simp only [commentLe, decide_eq_true_eq]
  exact le_trans

/-- commentLe is total. -/
theorem commentLe_total (a b : IGComment) : (commentLe a b || commentLe b a) = true := by
  simp only [commentLe, Bool.or_eq_true, decide_eq_true_eq]
  exact Int.le_total a.created_time b.created_time

/-- commentGe is transitive. -/
theorem commentGe_trans (a b c : IGComment) :
    commentGe a b = true → commentGe b c = true → commentGe a c = true := by
  simp only [commentGe, decide_eq_true_eq]
  intro h1 h2
  exact le_trans h2 h1

/-- commentGe is total. -/
theorem commentGe_total (a b : IGComment) : (commentGe a b || commentGe b a) = true := by
  simp only [commentGe, Bool.or_eq_true, decide_eq_true_eq]
  exact Int.le_total b.created_time a.created_time

/-- media_n_comments returns a permutation of the concatenation, in fetch
order, of the fetched pages' comment lists (patched when auto_patch). -/
theorem media_n_comments_perm (pages : Nat → Page IGComment) (n : Nat)
    (reverse auto_patch : Bool) (patchComment : IGComment → IGComment) :
    (media_n_comments pages n reverse auto_patch patchComment).Perm
      (if auto_patch
       then (flatItems pages (fetchCount pages n)).map patchComment
       else flatItems pages (fetchCount pages n)) := by
  have hc := paginate_concat pages n
  unfold media_n_comments
  cases reverse <;> cases auto_patch <;> simp only [if_true, if_false, Bool.true_eq_false,
    Bool.false_eq_true, ite_true, ite_false] <;> rw [hc] <;>
    first
      | exact List.mergeSort_perm _ commentLe
      | exact List.mergeSort_perm _ commentGe

/-- With reverse=False, the result of media_n_comments is ascending in
created_time. -/
theorem media_n_comments_sorted_asc (pages : Nat → Page IGComment) (n : Nat)
    (auto_patch : Bool) (patchComment : IGComment → IGComment) :
    List.Pairwise (fun a b => a.created_time ≤ b.created_time)
      (media_n_comments pages n false auto_patch patchComment) := by
  unfold media_n_comments
  simp only [Bool.false_eq_true, ite_false, if_false]
  have hs := List.sorted_mergeSort commentLe_trans commentLe_total
    (if auto_patch
     then ((paginate pages n).1 ++ (paginate pages n).2.1.items).map patchComment
     else (paginate pages n).1 ++ (paginate pages n).2.1.items)
  refine List.Pairwise.imp ?_ hs
  intro a b h
  simpa [commentLe] using h

/-- With reverse=True, the result of media_n_comments is descending in
created_time. -/
theorem media_n_comments_sorted_desc (pages : Nat → Page IGComment) (n : Nat)
    (auto_patch : Bool) (patchComment : IGComment → IGComment) :
    List.Pairwise (fun a b => b.created_time ≤ a.created_time)
      (media_n_comments pages n true auto_patch patchComment) := by
  unfold media_n_comments
  simp only [ite_true, if_true]
  have hs := List.sorted_mergeSort commentGe_trans commentGe_total
    (if auto_patch
     then ((paginate pages n).1 ++ (paginate pages n).2.1.items).map patchComment
     else (paginate pages n).1 ++ (paginate pages n).2.1.items)
  refine List.Pairwise.imp ?_ hs
  intro a b h
  simpa [commentGe] using h

/-- If page m carries no (truthy) cursor then no page beyond m+1 is ever
requested. -/
theorem fetch_le_of_no_cursor {α : Type} (pages : Nat → Page α) (n m : Nat)
    (hm : cursorTruthy (pages m).next_max_id = false) :
    fetchCount pages n ≤ m + 1 := by
  by_contra h
  have hlt : m + 1 < fetchCount pages n := by omega
  have hcont := (paginate_spec pages n).2.2.1 m hlt
  unfold continues whileCond at hcont
  simp only [Bool.and_eq_true, Bool.or_eq_true, decide_eq_true_eq] at hcont
  rw [hm] at hcont
  exact Bool.false_ne_true hcont.2.1.2

/-- For k ≥ 1 (a response fetched inside the loop), the decision to request a
further page is equivalent to: more flag set, cursor present, item list
non-empty, and accumulated count below n. -/
theorem continues_iff_of_pos {α : Type} (pages : Nat → Page α) (n k : Nat) (hk : 1 ≤ k) :
    continues pages n k = true ↔
      ((pages k).more = true ∧ cursorTruthy (pages k).next_max_id = true ∧
       (pages k).items ≠ [] ∧ (flatItems pages (k+1)).length < n) := by
  unfold continues noBail whileCond
  have hd : decide (k = 0) = false := by
    simp only [decide_eq_false_iff_not]
    omega
  rw [hd]
  simp only [Bool.false_or, Bool.and_eq_true, Bool.not_eq_true', decide_eq_true_eq]
  constructor
  · rintro ⟨⟨hcu, hie⟩, ⟨hm, -⟩, hlen⟩
    refine ⟨hm, hcu, ?_, hlen⟩
    intro hnil
    rw [hnil] at hie
    simp at hie
  · rintro ⟨hm, hcu, hne, hlen⟩
    have hie : (pages k).items.isEmpty = false := by
      cases hi : (pages k).items with
      | nil => exact absurd hi hne
      | cons a l => rfl
    exact ⟨⟨hcu, hie⟩, ⟨hm, hcu⟩, hlen⟩

/-- C1 (corrected, counterexample): as stated, the claim fails for
media_n_comments: with a single fetched page holding comments with
created_time 2 then 1 and no cursor, the helper returns the sorted list, not
the concatenation in fetch order. -/
theorem claim_C1_counterexample :
    ¬ (media_n_comments onePageC 150 false false id =
        flatItems onePageC (fetchCount onePageC 150)) := by
  intro h
  have hs := media_n_comments_sorted_asc onePageC 150 false id
  rw [h] at hs
  have hfc : fetchCount onePageC 150 = 1 := by
    have hle := fetch_le_of_no_cursor onePageC 150 0 rfl
    have h1 := (paginate_spec onePageC 150).1
    omega
  rw [hfc] at hs
  have hfl : flatItems onePageC 1 = [⟨2, 0⟩, ⟨1, 1⟩] := by decide
  rw [hfl] at hs
  norm_num [List.pairwise_cons] at hs

/-- C1 (amended): for every finite page sequence whose last page reports no
next_max_id cursor, feed_timeline returns exactly the concatenation, in
fetch order, of the item lists of all fetched pages and fetches no page past
the cursorless one; media_n_comments accumulates exactly that concatenation
but returns it sorted by created_time (ascending by default, descending when
reverse) — a permutation of the concatenation — and likewise stops. -/
theorem claim_C1 {α : Type} (pages : Nat → Page α) (n : Nat) (patchItem : α → α)
    (m : Nat) (hm : cursorTruthy (pages m).next_max_id = false)
    (pagesC : Nat → Page IGComment) (nC mC : Nat) (reverse : Bool)
    (patchC : IGComment → IGComment)
    (hmC : cursorTruthy (pagesC mC).next_max_id = false) :
    (feed_timeline pages n false patchItem = flatItems pages (fetchCount pages n) ∧
     fetchCount pages n ≤ m + 1) ∧
    ((media_n_comments pagesC nC reverse false patchC).Perm
        (flatItems pagesC (fetchCount pagesC nC)) ∧
     (reverse = false →
       List.Pairwise (fun a b => a.created_time ≤ b.created_time)
         (media_n_comments pagesC nC reverse false patchC)) ∧
     fetchCount pagesC nC ≤ mC + 1) := by
  refine ⟨⟨feed_timeline_concat pages n patchItem, fetch_le_of_no_cursor pages n m hm⟩,
    ?_, ?_, fetch_le_of_no_cursor pagesC nC mC hmC⟩
  · have hp := media_n_comments_perm pagesC nC reverse false patchC
    simpa using hp
  · intro hrev
    subst hrev
    exact media_n_comments_sorted_asc pagesC nC false patchC

/-- Witness for the amended C1 at concrete single-page servers. -/
theorem claim_C1_witness :
    cursorTruthy (wPagesA 0).next_max_id = false ∧
    cursorTruthy (onePageC 0).next_max_id = false ∧
    feed_timeline wPagesA 5 false id = flatItems wPagesA (fetchCount wPagesA 5) ∧
    fetchCount wPagesA 5 ≤ 1 ∧
    (media_n_comments onePageC 150 false false id).Perm
      (flatItems onePageC (fetchCount onePageC 150)) := by
  have h := claim_C1 wPagesA 5 id 0 rfl onePageC 150 0 false id rfl
  exact ⟨rfl, rfl, h.1.1, h.1.2, h.2.1⟩

/-- C2: after the initial request, the second request happens iff the first
response has the more flag, a truthy cursor, and fewer than n accumulated
items; a loop-fetched response with no cursor or an empty item list stops the
loop immediately after its items were appended (the helper still returns);
and in general a loop-fetched response is followed by a further request iff
the flag, the cursor, non-empty items and the count threshold all hold. -/
theorem claim_C2 {α : Type} (pages : Nat → Page α) (n : Nat) :
    (1 < fetchCount pages n ↔
      ((pages 0).more = true ∧ cursorTruthy (pages 0).next_max_id = true ∧
        (flatItems pages 1).length < n)) ∧
    (∀ k, 1 ≤ k → k < fetchCount pages n →
      (cursorTruthy (pages k).next_max_id = false ∨ (pages k).items = []) →
      fetchCount pages n = k + 1) ∧
    (∀ k, 1 ≤ k → k < fetchCount pages n →
      (k + 1 < fetchCount pages n ↔
        ((pages k).more = true ∧ cursorTruthy (pages k).next_max_id = true ∧
          (pages k).items ≠ [] ∧ (flatItems pages (k+1)).length < n))) := by
  have hpos := (paginate_spec pages n).1
  refine ⟨?_, ?_, ?_⟩
  · rw [fetch_succ_iff pages n 0]
    constructor
    · rintro ⟨-, hcont⟩
      unfold continues whileCond at hcont
      simp only [Bool.and_eq_true, Bool.or_eq_true, decide_eq_true_eq] at hcont
      exact ⟨hcont.2.1.1, hcont.2.1.2, hcont.2.2⟩
    · rintro ⟨hm, hcu, hlen⟩
      refine ⟨by omega, ?_⟩
      unfold continues whileCond
      rw [hm, hcu]
      simp [hlen]
  · intro k hk1 hkc hbail
    by_contra hne
    have hlt : k + 1 < fetchCount pages n := by omega
    have hcont := ((fetch_succ_iff pages n k).mp hlt).2
    rw [continues_iff_of_pos pages n k hk1] at hcont
    rcases hbail with hb | hb
    · rw [hb] at hcont
      exact Bool.false_ne_true hcont.2.1
    · exact hcont.2.2.1 hb
  · intro k hk1 hkc
    rw [fetch_succ_iff pages n k, continues_iff_of_pos pages n k hk1]
    constructor
    · rintro ⟨-, h⟩
      exact h
    · intro h
      exact ⟨hkc, h⟩

/-- Witness for C2: a server whose second page advertises more pages with a
cursor but returns no items; the loop bails out after fetching it. -/
theorem claim_C2_witness :
    1 < fetchCount wPagesB 10 ∧ fetchCount wPagesB 10 = 2 := by
  have h := claim_C2 wPagesB 10
  have h1 : 1 < fetchCount wPagesB 10 := by
    apply h.1.mpr
    refine ⟨rfl, rfl, ?_⟩
    decide
  exact ⟨h1, h.2.1 1 (le_refl 1) (by omega) (Or.inr rfl)⟩

/-- C3: every call of the pagination helpers terminates after at most n + 1
requests, for every page sequence whatsoever (the declared well-founded
recursion of paginateLoop already makes the loop total), and at least the
initial request is issued. -/
theorem claim_C3 {α : Type} (pages : Nat → Page α) (n : Nat) :
    1 ≤ fetchCount pages n ∧ fetchCount pages n ≤ n + 1 :=
  ⟨(paginate_spec pages n).1, fetchCount_le pages n⟩

/-- C9: media_n_comments returns a permutation of the concatenated comments
of the fetched pages (each compat-patched when auto_patch), sorted by
created_time: ascending when reverse=False, descending when reverse=True. -/
theorem claim_C9 (pages : Nat → Page IGComment) (n : Nat) (reverse auto_patch : Bool)
    (patchComment : IGComment → IGComment) :
    (media_n_comments pages n reverse auto_patch patchComment).Perm
      (if auto_patch
       then (flatItems pages (fetchCount pages n)).map patchComment
       else flatItems pages (fetchCount pages n)) ∧
    (reverse = false →
      List.Pairwise (fun a b => a.created_time ≤ b.created_time)
        (media_n_comments pages n reverse auto_patch patchComment)) ∧
    (reverse = true →
      List.Pairwise (fun a b => b.created_time ≤ a.created_time)
        (media_n_comments pages n reverse auto_patch patchComment)) := by
  refine ⟨media_n_comments_perm pages n reverse auto_patch patchComment, ?_, ?_⟩
  · intro hrev
    subst hrev
    exact media_n_comments_sorted_asc pages n auto_patch patchComment
  · intro hrev
    subst hrev
    exact media_n_comments_sorted_desc pages n auto_patch patchComment

/-- Witness for C9 at a concrete two-page server. -/
theorem claim_C9_witness :
    (media_n_comments wPagesC 1 false false id).Perm
      (flatItems wPagesC (fetchCount wPagesC 1)) ∧
    List.Pairwise (fun a b => a.created_time ≤ b.created_time)
      (media_n_comments wPagesC 1 false false id) := by
  have h := claim_C9 wPagesC 1 false false id
  exact ⟨by simpa using h.1, h.2.1 rfl⟩

/-- C10: with auto_patch enabled, feed_timeline compat-patches (in place)
exactly the items of the final fetched response; the items accumulated from
all earlier pages are returned unmodified. -/
theorem claim_C10 {β : Type} (pages : Nat → Page (Option β)) (n : Nat)
    (patchMedia : β → β) :
    feed_timeline pages n true (patchFeedItem patchMedia) =
      flatItems pages (fetchCount pages n - 1) ++
        (pages (fetchCount pages n - 1)).items.map (patchFeedItem patchMedia) := by
  obtain ⟨h1, h2, -, -⟩ := paginate_spec pages n
  unfold feed_timeline
  rw [h2]
  simp

/-! Theorems about post_comment validation. -/

/-- C4: post_comment raises a ValueError exactly when the comment text is
over 300 characters, or contains a letter and equals its own uppercasing, or
has more than 4 hashtag tokens, or more than 1 URL; a text violating none of
the four rules is not rejected. -/
theorem claim_C4 {σ ρ : Type} (st : σ) (call_api : σ → ApiCall → σ × ρ)
    (auto_patch : Bool) (patchRes : ρ → ρ) (breadcrumb : Nat → List Char)
    (uuid : List Char) (authenticated_params : List (String × List Char))
    (media_id : String) (comment_text : List Char) :
    (∃ msg, (post_comment st call_api auto_patch patchRes breadcrumb uuid
        authenticated_params media_id comment_text).1 = PCResult.err msg) ↔
      (300 < comment_text.length ∨
       (comment_text.any Char.isAlpha = true ∧
         comment_text = comment_text.map Char.toUpper) ∨
       4 < hashtagCount comment_text ∨
       1 < urlCount comment_text) := by
  unfold post_comment
  split_ifs with h1 h2 h3 h4
  · exact iff_of_true ⟨_, rfl⟩ (Or.inl h1)
  · simp only [Bool.and_eq_true, decide_eq_true_eq] at h2
    exact iff_of_true ⟨_, rfl⟩ (Or.inr (Or.inl h2))
  · exact iff_of_true ⟨_, rfl⟩ (Or.inr (Or.inr (Or.inl h3)))
  · exact iff_of_true ⟨_, rfl⟩ (Or.inr (Or.inr (Or.inr h4)))
  · refine iff_of_false ?_ ?_
    · rintro ⟨msg, hmsg⟩
      simp at hmsg
    · rintro (h | h | h | h)
      · exact h1 h
      · apply h2
        simp only [Bool.and_eq_true, decide_eq_true_eq]
        exact h
      · exact h3 h
      · exact h4 h

/-- C5: on every comment text failing one of the four validation rules,
post_comment raises before performing any API call: it returns the error with
the client state unchanged and an empty call trace. -/
theorem claim_C5 {σ ρ : Type} (st : σ) (call_api : σ → ApiCall → σ × ρ)
    (auto_patch : Bool) (patchRes : ρ → ρ) (breadcrumb : Nat → List Char)
    (uuid : List Char) (authenticated_params : List (String × List Char))
    (media_id : String) (comment_text : List Char)
    (h : 300 < comment_text.length ∨
      (comment_text.any Char.isAlpha = true ∧
        comment_text = comment_text.map Char.toUpper) ∨
      4 < hashtagCount comment_text ∨
      1 < urlCount comment_text) :
    ∃ msg, post_comment st call_api auto_patch patchRes breadcrumb uuid
        authenticated_params media_id comment_text = (PCResult.err msg, st, []) := by
  unfold post_comment
  split_ifs with h1 h2 h3 h4
  · exact ⟨_, rfl⟩
  · exact ⟨_, rfl⟩
  · exact ⟨_, rfl⟩
  · exact ⟨_, rfl⟩
  all_goals exfalso
  all_goals rcases h with h | h | h | h
  all_goals first
    | exact h1 h
    | exact h3 h
    | exact h4 h
    | (apply h2
       simp only [Bool.and_eq_true, decide_eq_true_eq]
       exact h)

/-- Witness for C5: an over-long comment is rejected with no call issued and
the state (here a call counter) unchanged. -/
theorem claim_C5_witness :
    ∃ msg, post_comment (0 : Nat) (fun s _ => (s + 1, (0 : Nat))) false id
        (fun _ => []) [] [] "123" (List.replicate 301 'a') =
      (PCResult.err msg, 0, []) :=
  claim_C5 0 (fun s _ => (s + 1, 0)) false id (fun _ => []) [] [] "123"
    (List.replicate 301 'a') (Or.inl (by rw [List.length_replicate]; omega))

/-! Theorems about the compat patcher. -/

/-- Lookup distributes over append, preferring the left list. -/
theorem entLookup_append {V : Type} (e s : List (String × V)) (key : String) :
    entLookup (e ++ s) key =
      (match entLookup e key with
       | some v => some v
       | none => entLookup s key) := by
  induction e with
  | nil => simp [entLookup]
  | cons p rest ih =>
    rcases p with ⟨k, v⟩
    by_cases h : k = key
    · simp [entLookup, h]
    · simp [entLookup, h, ih]

/-- A field present on the left keeps its value under append. -/
theorem entLookup_append_left {V : Type} (e s : List (String × V)) (key : String)
    (h : (entLookup e key).isSome = true) :
    entLookup (e ++ s) key = entLookup e key := by
  rw [entLookup_append]
  cases he : entLookup e key with
  | some v => simp
  | none => rw [he] at h; simp at h

/-- A list whose keys all lie in T resolves no key outside T. -/
theorem entLookup_none_of_keys {V : Type} (T : List String) (key : String)
    (hk : key ∉ T) :
    ∀ s : List (String × V), (∀ p ∈ s, p.1 ∈ T) → entLookup s key = none := by
  intro s
  induction s with
  | nil => intro _; rfl
  | cons p rest ih =>
    intro hs
    rcases p with ⟨k, v⟩
    have hkT : k ∈ T := hs (k, v) (by simp)
    have hne : k ≠ key := fun h => hk (h ▸ hkT)
    simp only [entLookup, if_neg hne]
    exact ih fun q hq => hs q (by simp [hq])

/-- Appending derived (target-keyed) fields does not change the canonical
view. -/
theorem canonicalView_append {V : Type} (T : List String) (e s : List (String × V))
    (hs : ∀ p ∈ s, p.1 ∈ T) : canonicalView T (e ++ s) = canonicalView T e := by
  funext k
  unfold canonicalView
  split_ifs with h
  · rfl
  · rw [entLookup_append]
    cases he : entLookup e k with
    | some v => simp
    | none => simp [entLookup_none_of_keys T k h s hs]

/-- applyRule only appends, and only target-keyed bindings. -/
theorem applyRule_extends {V : Type} (T : List String) (e : List (String × V))
    (r : PatchRule V) :
    ∃ s, applyRule T e r = e ++ s ∧ ∀ p ∈ s, p.1 = r.target := by
  unfold applyRule
  split_ifs with h
  · exact ⟨[], by simp, by simp⟩
  · cases hd : r.derive (canonicalView T e) with
    | some v => exact ⟨[(r.target, v)], by simp [hd], by simp⟩
    | none => exact ⟨[], by simp [hd], by simp⟩

/-- The rule fold only appends target-keyed bindings. -/
theorem foldl_applyRule_extends {V : Type} (T : List String) :
    ∀ rules : List (PatchRule V), (∀ r ∈ rules, r.target ∈ T) →
      ∀ e, ∃ s, rules.foldl (applyRule T) e = e ++ s ∧ ∀ p ∈ s, p.1 ∈ T := by
  intro rules
  induction rules with
  | nil => intro _ e; exact ⟨[], by simp, by simp⟩
  | cons r rs ih =>
    intro hT e
    obtain ⟨s0, hs0, hs0T⟩ := applyRule_extends T e r
    obtain ⟨s1, hs1, hs1T⟩ := ih (fun r' hr' => hT r' (by simp [hr'])) (applyRule T e r)
    refine ⟨s0 ++ s1, ?_, ?_⟩
    · rw [List.foldl_cons, hs1, hs0, List.append_assoc]
    · intro p hp
      rcases List.mem_append.mp hp with hp | hp
      · rw [hs0T p hp]
        exact hT r (by simp)
      · exact hs1T p hp

/-- After one full pass, every rule's target is present or its derivation
(read on the unchanged canonical view) yields nothing. -/
theorem foldl_applyRule_covers {V : Type} (T : List String) :
    ∀ (rules : List (PatchRule V)) (e : List (String × V)),
      (∀ r ∈ rules, r.target ∈ T) →
      ∀ r ∈ rules, (entLookup (rules.foldl (applyRule T) e) r.target).isSome = true ∨
        r.derive (canonicalView T e) = none := by
  intro rules
  induction rules with
  | nil =>
    intro e _ r hr
    simp at hr
  | cons r0 rs ih =>
    intro e hT r hr
    rw [List.foldl_cons]
    have hT0 : r0.target ∈ T := hT r0 (by simp)
    have hTrs : ∀ r' ∈ rs, r'.target ∈ T := fun r' h => hT r' (by simp [h])
    obtain ⟨s0, hs0, hs0T⟩ := applyRule_extends T e r0
    have hcanon : canonicalView T (applyRule T e r0) = canonicalView T e := by
      rw [hs0]
      exact canonicalView_append T e s0 (fun p hp => (hs0T p hp) ▸ hT0)
    rcases List.mem_cons.mp hr with hr0 | hrs
    · subst hr0
      by_cases habs : (entLookup e r.target).isSome = true
      · left
        have hpres : (entLookup (applyRule T e r) r.target).isSome = true := by
          unfold applyRule
          rw [if_pos habs]
          exact habs
        obtain ⟨s1, hs1, _⟩ := foldl_applyRule_extends T rs hTrs (applyRule T e r)
        rw [hs1, entLookup_append_left _ _ _ hpres]
        exact hpres
      · cases hd : r.derive (canonicalView T e) with
        | none => exact Or.inr rfl
        | some v =>
          left
          have hnone : entLookup e r.target = none := by
            cases he : entLookup e r.target with
            | some w => rw [he] at habs; simp at habs
            | none => rfl
          have hpres : (entLookup (applyRule T e r) r.target).isSome = true := by
            unfold applyRule
            rw [if_neg habs, hd]
            rw [entLookup_append, hnone]
            simp [entLookup]
          obtain ⟨s1, hs1, _⟩ := foldl_applyRule_extends T rs hTrs (applyRule T e r)
          rw [hs1, entLookup_append_left _ _ _ hpres]
          exact hpres
    · rcases ih (applyRule T e r0) hTrs r hrs with h | h
      · exact Or.inl h
      · right
        rw [← hcanon]
        exact h

/-- A pass over rules whose targets are present or whose derivations yield
nothing is the identity. -/
theorem foldl_applyRule_no_op {V : Type} (T : List String) :
    ∀ (rules : List (PatchRule V)) (e : List (String × V)),
      (∀ r ∈ rules, (entLookup e r.target).isSome = true ∨
        r.derive (canonicalView T e) = none) →
      rules.foldl (applyRule T) e = e := by
  intro rules
  induction rules with
  | nil => intro e _; rfl
  | cons r0 rs ih =>
    intro e h
    have h0 := h r0 (by simp)
    have hstep : applyRule T e r0 = e := by
      unfold applyRule
      rcases h0 with h0 | h0
      · rw [if_pos h0]
      · split_ifs with habs
        · rfl
        · rw [h0]
    rw [List.foldl_cons, hstep]
    exact ih e fun r hr => h r (by simp [hr])

/-- Patching is idempotent: a second pass finds every target present or every
derivation still empty, on an unchanged canonical view. -/
theorem patchWith_idem {V : Type} (rules : List (PatchRule V)) (e : List (String × V)) :
    patchWith rules (patchWith rules e) = patchWith rules e := by
  unfold patchWith
  have hTmem : ∀ r ∈ rules, r.target ∈ rules.map (fun r => r.target) := by
    intro r hr
    exact List.mem_map.mpr ⟨r, hr, rfl⟩
  obtain ⟨s, hs, hsT⟩ := foldl_applyRule_extends (rules.map (fun r => r.target)) rules hTmem e
  have hcanon : canonicalView (rules.map (fun r => r.target)) (rules.foldl (applyRule (rules.map (fun r => r.target))) e) =
      canonicalView (rules.map (fun r => r.target)) e := by
    rw [hs]
    exact canonicalView_append _ e s hsT
  apply foldl_applyRule_no_op
  intro r hr
  rcases foldl_applyRule_covers (rules.map (fun r => r.target)) rules e hTmem r hr with h | h
  · exact Or.inl h
  · right
    rw [hcanon]
    exact h

/-- Patching is additive: every field present in the original keeps its
value. -/
theorem patchWith_additive {V : Type} (rules : List (PatchRule V)) (e : List (String × V))
    (key : String) (h : (entLookup e key).isSome = true) :
    entLookup (patchWith rules e) key = entLookup e key := by
  unfold patchWith
  have hTmem : ∀ r ∈ rules, r.target ∈ rules.map (fun r => r.target) := by
    intro r hr
    exact List.mem_map.mpr ⟨r, hr, rfl⟩
  obtain ⟨s, hs, _⟩ := foldl_applyRule_extends (rules.map (fun r => r.target)) rules hTmem e
  rw [hs]
  exact entLookup_append_left e s key h

/-- With drop_incompat_keys not requested, patchEntity is the plain rule
pass. -/
theorem patchEntity_false {V : Type} (rules : List (PatchRule V)) (incompat : List String)
    (e : List (String × V)) : patchEntity rules incompat false e = patchWith rules e := rfl

/-- C6: every compat patch function (media, comment, user, list_user) is
idempotent — applying it twice equals applying it once — and additive —
every field present in the original entity keeps its value — when
drop_incompat_keys is not requested, for all derivations. -/
theorem claim_C6 {V : Type} (incompat : List String)
    (dId dLink dCreated dImages dType dFilter dCId dCCreated dCFrom
     dUId dUPic dUBio dUWeb dLId dLPic : (String → Option V) → Option V)
    (e : List (String × V)) (key : String)
    (hkey : (entLookup e key).isSome = true) :
    (ClientCompatPatch.media dId dLink dCreated dImages dType dFilter false incompat
        (ClientCompatPatch.media dId dLink dCreated dImages dType dFilter false incompat e) =
      ClientCompatPatch.media dId dLink dCreated dImages dType dFilter false incompat e ∧
     entLookup (ClientCompatPatch.media dId dLink dCreated dImages dType dFilter false
        incompat e) key = entLookup e key) ∧
    (ClientCompatPatch.comment dCId dCCreated dCFrom false incompat
        (ClientCompatPatch.comment dCId dCCreated dCFrom false incompat e) =
      ClientCompatPatch.comment dCId dCCreated dCFrom false incompat e ∧
     entLookup (ClientCompatPatch.comment dCId dCCreated dCFrom false incompat e) key =
       entLookup e key) ∧
    (ClientCompatPatch.user dUId dUPic dUBio dUWeb false incompat
        (ClientCompatPatch.user dUId dUPic dUBio dUWeb false incompat e) =
      ClientCompatPatch.user dUId dUPic dUBio dUWeb false incompat e ∧
     entLookup (ClientCompatPatch.user dUId dUPic dUBio dUWeb false incompat e) key =
       entLookup e key) ∧
    (ClientCompatPatch.list_user dLId dLPic false incompat
        (ClientCompatPatch.list_user dLId dLPic false incompat e) =
      ClientCompatPatch.list_user dLId dLPic false incompat e ∧
     entLookup (ClientCompatPatch.list_user dLId dLPic false incompat e) key =
       entLookup e key) := by
  unfold ClientCompatPatch.media ClientCompatPatch.comment ClientCompatPatch.user
    ClientCompatPatch.list_user
  simp only [patchEntity_false]
  exact ⟨⟨patchWith_idem _ _, patchWith_additive _ _ _ hkey⟩,
    ⟨patchWith_idem _ _, patchWith_additive _ _ _ hkey⟩,
    ⟨patchWith_idem _ _, patchWith_additive _ _ _ hkey⟩,
    ⟨patchWith_idem _ _, patchWith_additive _ _ _ hkey⟩⟩

/-- Witness for C6 at a concrete one-field entity and constant derivations. -/
theorem claim_C6_witness :
    (entLookup [("pk", (7:Nat))] "pk").isSome = true ∧
    ClientCompatPatch.media (fun _ => some 7) (fun _ => some 7) (fun _ => some 7)
        (fun _ => some 7) (fun _ => some 7) (fun _ => some 7) false []
        (ClientCompatPatch.media (fun _ => some 7) (fun _ => some 7) (fun _ => some 7)
          (fun _ => some 7) (fun _ => some 7) (fun _ => some 7) false [] [("pk", 7)]) =
      ClientCompatPatch.media (fun _ => some 7) (fun _ => some 7) (fun _ => some 7)
        (fun _ => some 7) (fun _ => some 7) (fun _ => some 7) false [] [("pk", 7)] ∧
    entLookup (ClientCompatPatch.media (fun _ => some 7) (fun _ => some 7) (fun _ => some 7)
        (fun _ => some 7) (fun _ => some 7) (fun _ => some 7) false [] [("pk", 7)]) "pk" =
      entLookup [("pk", 7)] "pk" := by
  have hkey : (entLookup [("pk", (7:Nat))] "pk").isSome = true := by
    simp [entLookup]
  have h := claim_C6 [] (fun _ => some 7) (fun _ => some 7) (fun _ => some 7)
    (fun _ => some 7) (fun _ => some 7) (fun _ => some 7) (fun _ => some 7)
    (fun _ => some 7) (fun _ => some 7) (fun _ => some 7) (fun _ => some 7)
    (fun _ => some 7) (fun _ => some 7) (fun _ => some 7) (fun _ => some 7)
    [("pk", 7)] "pk" hkey
  exact ⟨hkey, h.1.1, h.1.2⟩

/-! Theorems about the session save/load round trip. -/

/-- Decoding inverts the alphabet encoding of every 6-bit value. -/
theorem b64value_b64char : ∀ v, v < 64 → b64value (b64char v) = some v := by decide

/-- No alphabet character is the padding sign. -/
theorem b64char_ne_pad : ∀ v, v < 64 → b64char v ≠ '=' := by decide

/-- Alphabet characters survive the decoder's filter. -/
theorem isB64orPad_b64char : ∀ v, v < 64 → isB64orPad (b64char v) = true := by decide

/-- Every character emitted for a valid byte list survives the decoder's
filter. -/
theorem mem_encodeTriples (l : List Nat) (hv : ∀ b ∈ l, b < 256) :
    ∀ c ∈ encodeTriples l, isB64orPad c = true := by
  induction l using encodeTriples.induct with
  | case1 b1 b2 b3 t ih =>
    have h1 : b1 < 256 := hv _ (by simp)
    have h2 : b2 < 256 := hv _ (by simp)
    have h3 : b3 < 256 := hv _ (by simp)
    intro c hc
    simp only [encodeTriples, List.mem_cons] at hc
    rcases hc with hc | hc | hc | hc | hc
    · exact hc ▸ isB64orPad_b64char _ (by omega)
    · exact hc ▸ isB64orPad_b64char _ (by omega)
    · exact hc ▸ isB64orPad_b64char _ (by omega)
    · exact hc ▸ isB64orPad_b64char _ (by omega)
    · exact ih (fun b hb => hv b (by simp [hb])) c hc
  | case2 b1 b2 =>
    have h1 : b1 < 256 := hv _ (by simp)
    have h2 : b2 < 256 := hv _ (by simp)
    intro c hc
    simp only [encodeTriples, List.mem_cons] at hc
    rcases hc with hc | hc | hc | hc | hc
    · exact hc ▸ isB64orPad_b64char _ (by omega)
    · exact hc ▸ isB64orPad_b64char _ (by omega)
    · exact hc ▸ isB64orPad_b64char _ (by omega)
    · subst hc; rfl
    · simp at hc
  | case3 b1 =>
    have h1 : b1 < 256 := hv _ (by simp)
    intro c hc
    simp only [encodeTriples, List.mem_cons] at hc
    rcases hc with hc | hc | hc | hc | hc
    · exact hc ▸ isB64orPad_b64char _ (by omega)
    · exact hc ▸ isB64orPad_b64char _ (by omega)
    · subst hc; rfl
    · subst hc; rfl
    · simp at hc
  | case4 =>
    intro c hc
    simp [encodeTriples] at hc

/-- Decoding step on a full four-character group. -/
theorem decodeQuads_step (v1 v2 v3 v4 : Nat) (h1 : v1 < 64) (h2 : v2 < 64)
    (h3 : v3 < 64) (h4 : v4 < 64) (rest : List Char) :
    decodeQuads (b64char v1 :: b64char v2 :: b64char v3 :: b64char v4 :: rest) =
      (v1 * 4 + v2 / 16) :: ((v2 % 16) * 16 + v3 / 4) :: ((v3 % 4) * 64 + v4) ::
        decodeQuads rest := by
  simp only [decodeQuads, b64value_b64char v1 h1, b64value_b64char v2 h2,
    b64value_b64char v3 h3, b64value_b64char v4 h4]
  rw [if_neg (b64char_ne_pad v3 h3), if_neg (b64char_ne_pad v4 h4)]

/-- Decoding step on a doubly padded group. -/
theorem decodeQuads_pad2 (v1 v2 : Nat) (h1 : v1 < 64) (h2 : v2 < 64) :
    decodeQuads [b64char v1, b64char v2, '=', '='] = [v1 * 4 + v2 / 16] := by
  simp only [decodeQuads, b64value_b64char v1 h1, b64value_b64char v2 h2]
  simp

/-- Decoding step on a singly padded group. -/
theorem decodeQuads_pad1 (v1 v2 v3 : Nat) (h1 : v1 < 64) (h2 : v2 < 64) (h3 : v3 < 64) :
    decodeQuads [b64char v1, b64char v2, b64char v3, '='] =
      [v1 * 4 + v2 / 16, (v2 % 16) * 16 + v3 / 4] := by
  simp only [decodeQuads, b64value_b64char v1 h1, b64value_b64char v2 h2,
    b64value_b64char v3 h3]
  rw [if_neg (b64char_ne_pad v3 h3)]
  simp

/-- Base64 decoding inverts encoding on any valid byte list. -/
theorem decodeQuads_encodeTriples : ∀ l : List Nat, (∀ b ∈ l, b < 256) →
    decodeQuads (encodeTriples l) = l := by
  intro l
  induction l using encodeTriples.induct with
  | case1 b1 b2 b3 t ih =>
    intro hv
    have h1 : b1 < 256 := hv _ (by simp)
    have h2 : b2 < 256 := hv _ (by simp)
    have h3 : b3 < 256 := hv _ (by simp)
    simp only [encodeTriples]
    rw [decodeQuads_step _ _ _ _ (by omega) (by omega) (by omega) (by omega)]
    rw [ih (fun b hb => hv b (by simp [hb]))]
    simp only [List.cons.injEq]
    refine ⟨by omega, by omega, by omega, trivial⟩
  | case2 b1 b2 =>
    intro hv
    have h1 : b1 < 256 := hv _ (by simp)
    have h2 : b2 < 256 := hv _ (by simp)
    simp only [encodeTriples]
    rw [decodeQuads_pad1 _ _ _ (by omega) (by omega) (by omega)]
    simp only [List.cons.injEq]
    refine ⟨by omega, by omega, trivial⟩
  | case3 b1 =>
    intro hv
    have h1 : b1 < 256 := hv _ (by simp)
    simp only [encodeTriples]
    rw [decodeQuads_pad2 _ _ (by omega) (by omega)]
    simp only [List.cons.injEq]
    refine ⟨by omega, trivial⟩
  | case4 =>
    intro _
    rfl

/-- Base64 decoding of a full (length divisible by three) encoded block
peels it off any following characters. -/
theorem decodeQuads_encodeTriples_mod3 : ∀ l : List Nat, (∀ b ∈ l, b < 256) →
    l.length % 3 = 0 →
    ∀ rest, decodeQuads (encodeTriples l ++ rest) = l ++ decodeQuads rest := by
  intro l
  induction l using encodeTriples.induct with
  | case1 b1 b2 b3 t ih =>
    intro hv hlen rest
    have h1 : b1 < 256 := hv _ (by simp)
    have h2 : b2 < 256 := hv _ (by simp)
    have h3 : b3 < 256 := hv _ (by simp)
    have hlen' : t.length % 3 = 0 := by
      simp only [List.length_cons] at hlen
      omega
    simp only [encodeTriples, List.cons_append]
    rw [decodeQuads_step _ _ _ _ (by omega) (by omega) (by omega) (by omega)]
    rw [ih (fun b hb => hv b (by simp [hb])) hlen' rest]
    simp only [List.cons_append, List.cons.injEq]
    refine ⟨by omega, by omega, by omega, trivial⟩
  | case2 b1 b2 =>
    intro _ hlen
    simp at hlen
  | case3 b1 =>
    intro _ hlen
    simp at hlen
  | case4 =>
    intro _ _ rest
    rfl

/-- Every byte of every 57-byte chunk comes from the original list. -/
theorem mem_byteChunks : ∀ (l ch : List Nat), ch ∈ byteChunks l → ∀ x ∈ ch, x ∈ l := by
  intro l
  induction l using byteChunks.induct with
  | case1 =>
    intro ch hch
    simp [byteChunks] at hch
  | case2 b rest ih =>
    intro ch hch x hx
    rw [byteChunks] at hch
    rcases List.mem_cons.mp hch with h | h
    · exact List.take_subset _ _ (h ▸ hx)
    · exact List.drop_subset _ _ (ih ch h x hx)

/-- The decoder's filter strips exactly the line-wrapping newlines from the
codec output. -/
theorem filter_flatMap_enc : ∀ chunks : List (List Nat),
    (∀ ch ∈ chunks, ∀ x ∈ ch, x < 256) →
    (chunks.flatMap fun ch => encodeTriples ch ++ ['\n']).filter isB64orPad =
      chunks.flatMap encodeTriples := by
  intro chunks
  induction chunks with
  | nil => intro _; rfl
  | cons ch rest ih =>
    intro h
    simp only [List.flatMap_cons, List.filter_append]
    rw [List.filter_eq_self.mpr (mem_encodeTriples ch (h ch (by simp)))]
    rw [show List.filter isB64orPad ['\n'] = [] from rfl]
    rw [ih (fun c hc => h c (by simp [hc]))]
    simp

/-- Decoding the concatenated chunk encodings recovers the byte list. -/
theorem decodeQuads_chunks : ∀ l : List Nat, (∀ b ∈ l, b < 256) →
    decodeQuads ((byteChunks l).flatMap encodeTriples) = l := by
  intro l
  induction l using byteChunks.induct with
  | case1 =>
    intro _
    rw [byteChunks]
    rfl
  | case2 b rest ih =>
    intro hv
    rw [byteChunks]
    simp only [List.flatMap_cons]
    by_cases hlen : (b :: rest).length ≤ 57
    · have hdrop : (b :: rest).drop 57 = [] := List.drop_eq_nil_of_le hlen
      have htake : (b :: rest).take 57 = b :: rest := List.take_of_length_le hlen
      rw [hdrop]
      simp only [byteChunks, List.flatMap_nil, List.append_nil]
      rw [htake]
      exact decodeQuads_encodeTriples _ hv
    · push_neg at hlen
      have htake57 : ((b :: rest).take 57).length = 57 := by
        rw [List.length_take]
        omega
      rw [decodeQuads_encodeTriples_mod3 _
        (fun x hx => hv x (List.take_subset _ _ hx)) (by rw [htake57]) _]
      rw [ih (fun x hx => hv x (List.drop_subset _ _ hx))]
      exact List.take_append_drop _ _

/-- The base64 codec round-trips every valid byte list. -/
theorem codec_roundtrip (l : List Nat) (hv : ∀ b ∈ l, b < 256) :
    decodeBase64Codec (encodeBase64Codec l) = l := by
  unfold decodeBase64Codec encodeBase64Codec
  rw [filter_flatMap_enc (byteChunks l) (fun ch hch x hx => hv x (mem_byteChunks l ch hch x hx))]
  exact decodeQuads_chunks l hv

/-- from_json inverts to_json on every valid byte value. -/
theorem from_json_to_json (b : List Nat) (hv : ∀ x ∈ b, x < 256) :
    from_json (to_json b) = HookResult.bytes b := by
  have h := codec_roundtrip b hv
  simp [from_json, to_json, entLookup, h]

/-- Lookup commutes with mapping over the values of a field list. -/
theorem entLookup_map_value {V W : Type} (f : V → W) :
    ∀ (s : List (String × V)) (key : String),
      entLookup (s.map fun kv => (kv.1, f kv.2)) key = (entLookup s key).map f := by
  intro s
  induction s with
  | nil => intro key; rfl
  | cons p rest ih =>
    intro key
    rcases p with ⟨k, v⟩
    by_cases h : k = key
    · simp [entLookup, h]
    · simp [entLookup, h, ih]

/-- Reading back the dumped fields recovers every settings leaf. -/
theorem loadFields_map : ∀ settings : List (String × SettingVal),
    (∀ kv ∈ settings, leafValid kv.2 = true) →
    loadFields (settings.map fun kv => (kv.1, leafToJson kv.2)) = some settings := by
  intro s
  induction s with
  | nil => intro _; rfl
  | cons kv rest ih =>
    intro hvld
    rcases kv with ⟨k, v⟩
    simp only [List.map_cons, loadFields]
    have hleaf : hookLeaf (leafToJson v) = some v := by
      cases v with
      | str s => rfl
      | num n => rfl
      | boolean bb => rfl
      | bytes b =>
        have hbv : ∀ x ∈ b, x < 256 := by
          have hh := hvld (k, SettingVal.bytes b) (by simp)
          simp only [leafValid, List.all_eq_true, decide_eq_true_eq] at hh
          exact hh
        simp only [leafToJson, hookLeaf]
        rw [from_json_to_json b hbv]
    rw [hleaf, ih (fun q hq => hvld q (by simp [hq]))]

/-- C7: a flat session settings dictionary (no field named __class__) dumped
with the bytes-tagging encoder and loaded with the matching decoder comes
back unchanged; in particular from_json(to_json(b)) = b for every bytes
value. -/
theorem claim_C7 (settings : List (String × SettingVal))
    (hv : ∀ kv ∈ settings, leafValid kv.2 = true)
    (hnc : entLookup settings "__class__" = none)
    (b : List Nat) (hb : ∀ x ∈ b, x < 256) :
    loadSettings (dumpSettings settings) = some settings ∧
    from_json (to_json b) = HookResult.bytes b := by
  refine ⟨?_, from_json_to_json b hb⟩
  unfold loadSettings dumpSettings
  have hlook : entLookup (settings.map fun kv => (kv.1, leafToJson kv.2)) "__class__" = none := by
    rw [entLookup_map_value, hnc]
    rfl
  show (match from_json (settings.map fun kv => (kv.1, leafToJson kv.2)) with
    | HookResult.keep d2 => loadFields d2
    | HookResult.bytes _ => none) = some settings
  rw [show from_json (settings.map fun kv => (kv.1, leafToJson kv.2)) =
      HookResult.keep (settings.map fun kv => (kv.1, leafToJson kv.2)) from by
    unfold from_json
    rw [hlook]]
  exact loadFields_map settings hv

/-- Witness for C7 at a concrete two-field settings dictionary with a bytes
cookie. -/
theorem claim_C7_witness :
    (∀ kv ∈ [("uuid", SettingVal.str "u".toList),
      ("cookie", SettingVal.bytes [0, 255, 16])], leafValid kv.2 = true) ∧
    entLookup [("uuid", SettingVal.str "u".toList),
      ("cookie", SettingVal.bytes [0, 255, 16])] "__class__" = none ∧
    loadSettings (dumpSettings [("uuid", SettingVal.str "u".toList),
      ("cookie", SettingVal.bytes [0, 255, 16])]) =
      some [("uuid", SettingVal.str "u".toList),
        ("cookie", SettingVal.bytes [0, 255, 16])] ∧
    from_json (to_json [0, 255, 16]) = HookResult.bytes [0, 255, 16] := by
  have h := claim_C7 [("uuid", SettingVal.str "u".toList),
      ("cookie", SettingVal.bytes [0, 255, 16])] (by decide) (by decide)
      [0, 255, 16] (by decide)
  exact ⟨by decide, by decide, h.1, h.2⟩

/-! Theorems about user-agent generation and parsing. -/

/-- Consuming an exact prefix leaves the remainder. -/
theorem dropPrefixChars_append : ∀ pre s : List Char, dropPrefixChars pre (pre ++ s) = some s := by
  intro pre
  induction pre with
  | nil => intro s; rfl
  | cons c cs ih =>
    intro s
    simp only [List.cons_append, dropPrefixChars, if_pos rfl]
    exact ih s

/-- Splitting at the first separator after a separator-free block. -/
theorem splitFirst_append (sep : Char) :
    ∀ l : List Char, sep ∉ l → ∀ r, splitFirst sep (l ++ sep :: r) = some (l, r) := by
  intro l
  induction l with
  | nil =>
    intro _ r
    simp [splitFirst]
  | cons c cs ih =>
    intro h r
    have hc : ¬ (c = sep) := fun hh => h (by simp [hh])
    simp only [List.cons_append, splitFirst, if_neg hc, List.append_eq]
    rw [ih (fun hm => h (by simp [hm])) r]

/-- A separator-free string is a single segment. -/
theorem splitAll_single (sep : Char) :
    ∀ l : List Char, sep ∉ l → splitAll sep l = [l] := by
  intro l
  induction l with
  | nil => intro _; rfl
  | cons c cs ih =>
    intro h
    have hc : ¬ (c = sep) := fun hh => h (by simp [hh])
    simp only [splitAll, if_neg hc]
    rw [ih (fun hm => h (by simp [hm]))]

/-- Splitting peels off a separator-free head segment. -/
theorem splitAll_append (sep : Char) :
    ∀ a : List Char, sep ∉ a → ∀ r, splitAll sep (a ++ sep :: r) = a :: splitAll sep r := by
  intro a
  induction a with
  | nil =>
    intro _ r
    simp [splitAll]
  | cons c cs ih =>
    intro h r
    have hc : ¬ (c = sep) := fun hh => h (by simp [hh])
    simp only [List.cons_append, splitAll, if_neg hc, List.append_eq]
    rw [ih (fun hm => h (by simp [hm])) r]

/-- Dropping leading spaces is the identity when the head is no space. -/
theorem dropWhile_head_ne : ∀ l : List Char, l.head? ≠ some ' ' →
    (l.dropWhile fun c => c = ' ') = l := by
  intro l h
  cases l with
  | nil => rfl
  | cons c cs =>
    have hc : ¬ (c = ' ') := fun hh => h (by simp [hh])
    simp [List.dropWhile_cons, hc]

/-- Digit characters decode to their value. -/
theorem digitVal_digitChar : ∀ d, d < 10 → digitVal (digitChar d) = some d := by decide

/-- Digit characters are decimal digits. -/
theorem digitChar_is_digit : ∀ d, d < 10 → '0' ≤ digitChar d ∧ digitChar d ≤ '9' := by decide

/-- Every character of a rendered number is a decimal digit. -/
theorem mem_natCharsCore_digit : ∀ n, ∀ c ∈ natCharsCore n, '0' ≤ c ∧ c ≤ '9' := by
  intro n
  induction n using natCharsCore.induct with
  | case1 =>
    intro c hc
    simp [natCharsCore] at hc
  | case2 n ih =>
    intro c hc
    rw [natCharsCore] at hc
    rcases List.mem_append.mp hc with h | h
    · exact ih c h
    · have : c = digitChar ((n+1) % 10) := by simpa using h
      exact this ▸ digitChar_is_digit _ (by omega)

/-- Every character of a rendered number is a decimal digit. -/
theorem mem_natChars_digit : ∀ n, ∀ c ∈ natChars n, '0' ≤ c ∧ c ≤ '9' := by
  intro n c hc
  unfold natChars at hc
  split_ifs at hc with h
  · have : c = '0' := by simpa using hc
    subst this
    decide
  · exact mem_natCharsCore_digit n c hc

/-- Parsing distributes over append. -/
theorem parseNatAux_append : ∀ (l1 l2 : List Char) (a : Nat),
    parseNatAux (l1 ++ l2) a =
      (match parseNatAux l1 a with
       | some r => parseNatAux l2 r
       | none => none) := by
  intro l1
  induction l1 with
  | nil => intro l2 a; rfl
  | cons c cs ih =>
    intro l2 a
    simp only [List.cons_append, parseNatAux]
    cases digitVal c with
    | some d => exact ih l2 (a * 10 + d)
    | none => rfl

/-- The accumulating parser inverts the renderer. -/
theorem parseNatAux_natCharsCore : ∀ n a,
    parseNatAux (natCharsCore n) a = some (a * 10 ^ (natCharsCore n).length + n) := by
  intro n
  induction n using natCharsCore.induct with
  | case1 =>
    intro a
    simp [natCharsCore, parseNatAux]
  | case2 n ih =>
    intro a
    rw [natCharsCore, parseNatAux_append, ih a]
    have hd : digitVal (digitChar ((n+1) % 10)) = some ((n+1) % 10) :=
      digitVal_digitChar _ (by omega)
    simp only [parseNatAux, hd]
    simp only [List.length_append, List.length_cons, List.length_nil]
    rw [pow_succ]
    have hrec : (n + 1) / 10 * 10 + (n + 1) % 10 = n + 1 := by omega
    congr 1
    have : a * (10 ^ (natCharsCore ((n+1)/10)).length * 10) =
        a * 10 ^ (natCharsCore ((n+1)/10)).length * 10 := by ring
    rw [this]
    omega

/-- Parsing inverts rendering for every natural number. -/
theorem parseNat_natChars : ∀ n, parseNat (natChars n) = some n := by
  intro n
  unfold natChars
  split_ifs with h
  · subst h
    decide
  · have hne : natCharsCore n ≠ [] := by
      cases hn : n with
      | zero => exact absurd hn h
      | succ m =>
        rw [natCharsCore]
        simp
    cases hc : natCharsCore n with
    | nil => exact absurd hc hne
    | cons c cs =>
      show parseNatAux (c :: cs) 0 = some n
      rw [← hc, parseNatAux_natCharsCore]
      simp

/-- A segment with a non-digit character fails the parser. -/
theorem parseNatAux_none : ∀ l : List Char, (∃ c ∈ l, digitVal c = none) →
    ∀ a, parseNatAux l a = none := by
  intro l
  induction l with
  | nil =>
    rintro ⟨c, hc, -⟩
    simp at hc
  | cons c cs ih =>
    rintro ⟨d, hd, hdv⟩ a
    rcases List.mem_cons.mp hd with h | h
    · subst h
      simp [parseNatAux, hdv]
    · simp only [parseNatAux]
      cases digitVal c with
      | some v => exact ih ⟨d, h, hdv⟩ _
      | none => rfl

/-- A segment with a non-digit character fails the parser. -/
theorem parseNat_none : ∀ l : List Char, (∃ c ∈ l, digitVal c = none) →
    parseNat l = none := by
  intro l h
  cases l with
  | nil => rfl
  | cons c cs =>
    show parseNatAux (c :: cs) 0 = none
    exact parseNatAux_none _ h 0

/-- Unpacking of the field sanity test. -/
theorem uaFieldOk_spec (f : List Char) (h : uaFieldOk f = true) :
    ';' ∉ f ∧ ')' ∉ f ∧ f.head? ≠ some ' ' := by
  unfold uaFieldOk at h
  simp only [Bool.and_eq_true, decide_eq_true_eq] at h
  exact ⟨h.1.1, h.1.2, h.2⟩

/-- The rendered digits of a number contain no descriptor delimiter and no
leading space. -/
theorem natChars_sep_free (n : Nat) :
    ';' ∉ natChars n ∧ ')' ∉ natChars n ∧ '/' ∉ natChars n ∧
      (natChars n).head? ≠ some ' ' := by
  have hd := mem_natChars_digit n
  refine ⟨?_, ?_, ?_, ?_⟩
  · intro h
    have := hd _ h
    revert this
    decide
  · intro h
    have := hd _ h
    revert this
    decide
  · intro h
    have := hd _ h
    revert this
    decide
  · cases hc : natChars n with
    | nil => simp
    | cons c cs =>
      have hcd := hd c (by rw [hc]; simp)
      simp only [List.head?_cons]
      intro hh
      have hsp : c = ' ' := by simpa using hh
      subst hsp
      revert hcd
      decide

/-- Parsing a descriptor-shaped string recovers the fields, with the outcome
of the android-version segment governed by the decimal parser. -/
theorem validate_rawUA (avs : List Char) (p : UserAgentParams)
    (hap : ' ' ∉ p.app_version)
    (havs1 : ';' ∉ avs) (havs2 : ')' ∉ avs) (havs3 : '/' ∉ avs)
    (havs4 : avs.head? ≠ some ' ')
    (hrel1 : ';' ∉ p.android_release) (hrel2 : ')' ∉ p.android_release)
    (hdpi : uaFieldOk p.dpi = true) (hres : uaFieldOk p.resolution = true)
    (hbrand : uaFieldOk p.brand = true) (hdev : uaFieldOk p.device = true)
    (hmdl : uaFieldOk p.model = true) (hchip : uaFieldOk p.chipset = true)
    (hloc : uaFieldOk p.locale = true) :
    validate_useragent (rawUA avs p) =
      (match parseNat avs with
       | some av => Except.ok ⟨p.app_version, av, p.android_release, p.dpi,
           p.resolution, p.brand, p.device, p.model, p.chipset, p.locale⟩
       | none => Except.error "User-agent specified does not match format required") := by
  obtain ⟨hdpi1, hdpi2, hdpi3⟩ := uaFieldOk_spec _ hdpi
  obtain ⟨hres1, hres2, hres3⟩ := uaFieldOk_spec _ hres
  obtain ⟨hbrand1, hbrand2, hbrand3⟩ := uaFieldOk_spec _ hbrand
  obtain ⟨hdev1, hdev2, hdev3⟩ := uaFieldOk_spec _ hdev
  obtain ⟨hmdl1, hmdl2, hmdl3⟩ := uaFieldOk_spec _ hmdl
  obtain ⟨hchip1, hchip2, hchip3⟩ := uaFieldOk_spec _ hchip
  obtain ⟨hloc1, hloc2, hloc3⟩ := uaFieldOk_spec _ hloc
  have hinner : ')' ∉ uaInner avs p := by
    simp [uaInner, havs2, hrel2, hdpi2, hres2, hbrand2, hdev2, hmdl2, hchip2, hloc2]
  have hAvRel : ';' ∉ (avs ++ '/' :: p.android_release) := by
    simp [havs1, hrel1]
  have hseg : ∀ f : List Char, ';' ∉ f → ';' ∉ (' ' :: f) := by
    intro f hf
    simp [hf]
  have havRelHead : (avs ++ '/' :: p.android_release).head? ≠ some ' ' := by
    cases avs with
    | nil => simp
    | cons c cs =>
      simp only [List.cons_append, List.head?_cons]
      simpa using havs4
  have hdw : ∀ f : List Char, f.head? ≠ some ' ' →
      ((' ' :: f).dropWhile fun c => c = ' ') = f := by
    intro f hf
    simp only [List.dropWhile_cons]
    rw [if_pos (by decide)]
    exact dropWhile_head_ne f hf
  unfold validate_useragent
  have h1 : dropPrefixChars "Instagram ".toList (rawUA avs p) =
      some (p.app_version ++ ' ' :: ("Android (".toList ++ (uaInner avs p ++ [')']))) := by
    unfold rawUA
    rw [show "Instagram ".toList ++ p.app_version ++ [' '] ++ "Android (".toList ++
        uaInner avs p ++ [')'] =
        "Instagram ".toList ++
          (p.app_version ++ ' ' :: ("Android (".toList ++ (uaInner avs p ++ [')']))) from by
      simp [List.append_assoc]]
    exact dropPrefixChars_append _ _
  simp only [h1]
  have h2 : splitFirst ' '
      (p.app_version ++ ' ' :: ("Android (".toList ++ (uaInner avs p ++ [')']))) =
      some (p.app_version, "Android (".toList ++ (uaInner avs p ++ [')'])) :=
    splitFirst_append ' ' p.app_version hap _
  simp only [h2]
  have h3 : dropPrefixChars "Android (".toList
      ("Android (".toList ++ (uaInner avs p ++ [')'])) =
      some (uaInner avs p ++ [')']) := dropPrefixChars_append _ _
  simp only [h3]
  have h4 : splitFirst ')' (uaInner avs p ++ [')']) = some (uaInner avs p, []) := by
    have hh := splitFirst_append ')' (uaInner avs p) hinner []
    simpa using hh
  simp only [h4]
  simp only [if_true]
  have h5 : splitAll ';' (uaInner avs p) =
      [avs ++ '/' :: p.android_release, ' ' :: p.dpi, ' ' :: p.resolution,
       ' ' :: p.brand, ' ' :: p.device, ' ' :: p.model, ' ' :: p.chipset,
       ' ' :: p.locale] := by
    rw [show uaInner avs p =
        (avs ++ '/' :: p.android_release) ++ ';' :: ((' ' :: p.dpi) ++ ';' ::
          ((' ' :: p.resolution) ++ ';' :: ((' ' :: p.brand) ++ ';' ::
            ((' ' :: p.device) ++ ';' :: ((' ' :: p.model) ++ ';' ::
              ((' ' :: p.chipset) ++ ';' :: (' ' :: p.locale))))))) from by
      simp [uaInner, List.append_assoc]]
    rw [splitAll_append ';' _ hAvRel, splitAll_append ';' _ (hseg _ hdpi1),
        splitAll_append ';' _ (hseg _ hres1), splitAll_append ';' _ (hseg _ hbrand1),
        splitAll_append ';' _ (hseg _ hdev1), splitAll_append ';' _ (hseg _ hmdl1),
        splitAll_append ';' _ (hseg _ hchip1), splitAll_single ';' _ (hseg _ hloc1)]
  simp only [h5, List.map_cons, List.map_nil]
  rw [dropWhile_head_ne _ havRelHead, hdw _ hdpi3, hdw _ hres3, hdw _ hbrand3,
      hdw _ hdev3, hdw _ hmdl3, hdw _ hchip3, hdw _ hloc3]
  have h6 : splitFirst '/' (avs ++ '/' :: p.android_release) =
      some (avs, p.android_release) := splitFirst_append '/' avs havs3 _
  simp only [h6]

/-- C8: parsing inverts generation on every set of validated device fields
(fields free of the descriptor's delimiters), and parsing rejects with a
ValueError every descriptor whose android-version segment contains a
non-digit character. -/
theorem claim_C8 (p : UserAgentParams)
    (hap : ' ' ∉ p.app_version)
    (hrel1 : ';' ∉ p.android_release) (hrel2 : ')' ∉ p.android_release)
    (hdpi : uaFieldOk p.dpi = true) (hres : uaFieldOk p.resolution = true)
    (hbrand : uaFieldOk p.brand = true) (hdev : uaFieldOk p.device = true)
    (hmdl : uaFieldOk p.model = true) (hchip : uaFieldOk p.chipset = true)
    (hloc : uaFieldOk p.locale = true) :
    validate_useragent (generate_useragent p) = Except.ok p ∧
    (∀ avs : List Char, ';' ∉ avs → ')' ∉ avs → '/' ∉ avs → avs.head? ≠ some ' ' →
      (∃ c ∈ avs, digitVal c = none) →
      validate_useragent (rawUA avs p) =
        Except.error "User-agent specified does not match format required") := by
  constructor
  · unfold generate_useragent
    have hn := natChars_sep_free p.android_version
    rw [validate_rawUA _ p hap hn.1 hn.2.1 hn.2.2.1 hn.2.2.2 hrel1 hrel2 hdpi hres
      hbrand hdev hmdl hchip hloc]
    rw [parseNat_natChars]
  · intro avs a1 a2 a3 a4 hnd
    rw [validate_rawUA avs p hap a1 a2 a3 a4 hrel1 hrel2 hdpi hres hbrand hdev hmdl
      hchip hloc]
    rw [parseNat_none avs hnd]

/-- Witness for C8 at the device of the repository's user-agent tests. -/
theorem claim_C8_witness :
    validate_useragent (generate_useragent ⟨"9.2.0".toList, 22, "5.1.1".toList,
      "480dpi".toList, "1080x1920".toList, "Xiaomi".toList, "Redmi Note 3".toList,
      "kenzo".toList, "qcom".toList, "en_GB".toList⟩) =
      Except.ok ⟨"9.2.0".toList, 22, "5.1.1".toList, "480dpi".toList,
        "1080x1920".toList, "Xiaomi".toList, "Redmi Note 3".toList, "kenzo".toList,
        "qcom".toList, "en_GB".toList⟩ ∧
    validate_useragent (rawUA "xx".toList ⟨"9.2.0".toList, 22, "5.1.1".toList,
      "480dpi".toList, "1080x1920".toList, "Xiaomi".toList, "Redmi Note 3".toList,
      "kenzo".toList, "qcom".toList, "en_GB".toList⟩) =
      Except.error "User-agent specified does not match format required" := by
  have h := claim_C8 ⟨"9.2.0".toList, 22, "5.1.1".toList, "480dpi".toList,
    "1080x1920".toList, "Xiaomi".toList, "Redmi Note 3".toList, "kenzo".toList,
    "qcom".toList, "en_GB".toList⟩ (by decide) (by decide) (by decide) (by decide)
    (by decide) (by decide) (by decide) (by decide) (by decide) (by decide)
  exact ⟨h.1, h.2 "xx".toList (by decide) (by decide) (by decide) (by decide)
    ⟨'x', by decide, by decide⟩⟩

end InstaApi
